import Mathlib

set_option maxHeartbeats 1000000

/-!
Verification development for the Figma JSON compression tool
(compress-figma-json.py).

The tool loads one JSON document, applies a standard or an aggressive
compression tier and writes the result.  We embed the JSON data model as
the inductive type JVal (Python dicts become insertion-ordered association
lists, which is exactly the iteration and serialization order Python
guarantees; numbers are modelled as integers — no claim depends on float
values).  Fallible code (Python statements that can raise an uncaught
exception) is modelled in the Option monad: none means the corresponding
Python code raises.

Notes on faithfulness used throughout:
* Python dict keys are unique; association lists produced by json.load are
  key-nodup.  Where a proof needs this it is an explicit hypothesis.
* float comparisons in the source are exact for the quantities involved:
  len*0.75/1024 > maxKB  iff  3*len > 4096*maxKB, byteLen/1024 > maxKB
  iff byteLen > 1024*maxKB, and bytes/2**20 <= target iff
  bytes <= target*2**20 (0.75 and the divisors are exact powers-of-two
  scalings for any realistic size, so no rounding occurs).
-/

inductive JVal where
  | null : JVal
  | bool : Bool → JVal
  | num : Int → JVal
  | str : String → JVal
  | arr : List JVal → JVal
  | obj : List (String × JVal) → JVal

mutual

def jvalBeq : JVal → JVal → Bool
  | .null, .null => true
  | .bool a, .bool b => a == b
  | .num a, .num b => a == b
  | .str a, .str b => a == b
  | .arr a, .arr b => jvalListBeq a b
  | .obj a, .obj b => jvalFieldsBeq a b
  | _, _ => false

def jvalListBeq : List JVal → List JVal → Bool
  | [], [] => true
  | x :: xs, y :: ys => jvalBeq x y && jvalListBeq xs ys
  | _, _ => false

def jvalFieldsBeq : List (String × JVal) → List (String × JVal) → Bool
  | [], [] => true
  | (k, v) :: xs, (l, w) :: ys => k == l && jvalBeq v w && jvalFieldsBeq xs ys
  | _, _ => false

end

mutual

theorem jvalBeq_iff : ∀ (a b : JVal), jvalBeq a b = true ↔ a = b
  | .null, .null => by simp [jvalBeq]
  | .null, .bool _ => by simp [jvalBeq]
  | .null, .num _ => by simp [jvalBeq]
  | .null, .str _ => by simp [jvalBeq]
  | .null, .arr _ => by simp [jvalBeq]
  | .null, .obj _ => by simp [jvalBeq]
  | .bool _, .null => by simp [jvalBeq]
  | .bool _, .bool _ => by simp [jvalBeq]
  | .bool _, .num _ => by simp [jvalBeq]
  | .bool _, .str _ => by simp [jvalBeq]
  | .bool _, .arr _ => by simp [jvalBeq]
  | .bool _, .obj _ => by simp [jvalBeq]
  | .num _, .null => by simp [jvalBeq]
  | .num _, .bool _ => by simp [jvalBeq]
  | .num _, .num _ => by simp [jvalBeq]
  | .num _, .str _ => by simp [jvalBeq]
  | .num _, .arr _ => by simp [jvalBeq]
  | .num _, .obj _ => by simp [jvalBeq]
  | .str _, .null => by simp [jvalBeq]
  | .str _, .bool _ => by simp [jvalBeq]
  | .str _, .num _ => by simp [jvalBeq]
  | .str _, .str _ => by simp [jvalBeq]
  | .str _, .arr _ => by simp [jvalBeq]
  | .str _, .obj _ => by simp [jvalBeq]
  | .arr _, .null => by simp [jvalBeq]
  | .arr _, .bool _ => by simp [jvalBeq]
  | .arr _, .num _ => by simp [jvalBeq]
  | .arr _, .str _ => by simp [jvalBeq]
  | .arr xs, .arr ys => by simp [jvalBeq, jvalListBeq_iff xs ys]
  | .arr _, .obj _ => by simp [jvalBeq]
  | .obj _, .null => by simp [jvalBeq]
  | .obj _, .bool _ => by simp [jvalBeq]
  | .obj _, .num _ => by simp [jvalBeq]
  | .obj _, .str _ => by simp [jvalBeq]
  | .obj _, .arr _ => by simp [jvalBeq]
  | .obj a, .obj b => by simp [jvalBeq, jvalFieldsBeq_iff a b]

theorem jvalListBeq_iff : ∀ (xs ys : List JVal), jvalListBeq xs ys = true ↔ xs = ys
  | [], [] => by simp [jvalListBeq]
  | [], _ :: _ => by simp [jvalListBeq]
  | _ :: _, [] => by simp [jvalListBeq]
  | x :: xs, y :: ys => by
    simp [jvalListBeq, jvalBeq_iff x y, jvalListBeq_iff xs ys]

theorem jvalFieldsBeq_iff :
    ∀ (xs ys : List (String × JVal)), jvalFieldsBeq xs ys = true ↔ xs = ys
  | [], [] => by simp [jvalFieldsBeq]
  | [], _ :: _ => by simp [jvalFieldsBeq]
  | _ :: _, [] => by simp [jvalFieldsBeq]
  | (k, v) :: xs, (l, w) :: ys => by
    simp [jvalFieldsBeq, jvalBeq_iff v w, jvalFieldsBeq_iff xs ys, and_assoc]

end

instance : DecidableEq JVal :=
  fun a b => decidable_of_iff (jvalBeq a b = true) (jvalBeq_iff a b)

/-- First-occurrence lookup in a Python dict (modelled as assoc list). -/
def lookupField : List (String × JVal) → String → Option JVal
  | [], _ => none
  | (k, v) :: rest, key => if k = key then some v else lookupField rest key

/-- Python dict assignment d[key] = v: replaces the value in place when the
key is present (the entry keeps its position), appends otherwise. -/
def setField : List (String × JVal) → String → JVal → List (String × JVal)
  | [], key, v => [(key, v)]
  | (k, w) :: rest, key, v =>
    if k = key then (k, v) :: rest else (k, w) :: setField rest key v

/-- Python del d[key] (dict keys are unique, so filtering all occurrences
coincides with deleting the single entry). -/
def removeField (kvs : List (String × JVal)) (key : String) : List (String × JVal) :=
  kvs.filter (fun e => !(e.1 == key))

def hasField (kvs : List (String × JVal)) (key : String) : Bool :=
  (lookupField kvs key).isSome

/-- Python truthiness of a JSON value: None, False, 0, "", [], {} are falsy. -/
def isFalsy : JVal → Bool
  | .null => true
  | .bool b => !b
  | .num n => n == 0
  | .str s => s.isEmpty
  | .arr xs => xs.isEmpty
  | .obj kvs => kvs.isEmpty

def matchesAt : List Char → List Char → Bool
  | [], _ => true
  | _ :: _, [] => false
  | n :: ns, h :: hs => n == h && matchesAt ns hs

def hasSub (needle : List Char) : List Char → Bool
  | [] => needle.isEmpty
  | h :: hs => matchesAt needle (h :: hs) || hasSub needle hs

/-- Python substring test a in b for strings (code-point wise). -/
def strHasSub (needle hay : String) : Bool := hasSub needle.data hay.data

/-- Python membership test key in v for a string literal key.
dict: key test; str: substring test; list: equality with the elements
(a str literal equals only an equal str); other types: TypeError. -/
def pyContainsKey (key : String) : JVal → Option Bool
  | .obj kvs => some (hasField kvs key)
  | .str s => some (strHasSub key s)
  | .arr xs => some (xs.contains (.str key))
  | _ => none

/-- Python len(v): defined for str (code points), list and dict;
TypeError otherwise. -/
def pyLen : JVal → Option Nat
  | .str s => some s.length
  | .arr xs => some xs.length
  | .obj kvs => some kvs.length
  | _ => none

/-- Decision taken by compress_images for one asset record:
if 'base64' in asset and len(asset['base64'])*0.75/1024 > max_size_kb.
The float comparison is exactly 3*len > 4096*maxKB.  none = the Python
loop body raises (e.g. the record is a string containing "base64", or
base64 is bound to a value without len()). -/
def imageTooBig (asset : JVal) (maxKB : Nat) : Option Bool :=
  match pyContainsKey "base64" asset with
  | none => none
  | some false => some false
  | some true =>
    match asset with
    | .obj kvs =>
      match lookupField kvs "base64" with
      | some b =>
        match pyLen b with
        | some n => some (decide (3 * n > 4096 * maxKB))
        | none => none
      | none => none
    | _ => none

/-- Decision taken by compress_svgs for one asset record:
if 'svgCode' in asset and len(asset['svgCode'].encode('utf-8'))/1024 > max_size_kb.
.encode requires the value to be a str; the float comparison is exactly
bytes > 1024*maxKB. -/
def svgTooBig (asset : JVal) (maxKB : Nat) : Option Bool :=
  match pyContainsKey "svgCode" asset with
  | none => none
  | some false => some false
  | some true =>
    match asset with
    | .obj kvs =>
      match lookupField kvs "svgCode" with
      | some (.str s) => some (decide (s.utf8ByteSize > 1024 * maxKB))
      | some _ => none
      | none => none
    | _ => none

/-- The source first collects the keys to remove while iterating, then
deletes them; since dict keys are unique this equals keeping exactly the
entries whose size test is false, in order, and counting the removed ones.
The first record whose test raises aborts the stage (none), before any
deletion is observable from outside (deletions happen after the loop). -/
def pruneEntries (tooBig : JVal → Option Bool) :
    List (String × JVal) → Option (List (String × JVal) × Nat)
  | [] => some ([], 0)
  | (k, v) :: rest =>
    match tooBig v with
    | none => none
    | some flag =>
      match pruneEntries tooBig rest with
      | none => none
      | some (kept, n) =>
        if flag then some (kept, n + 1) else some ((k, v) :: kept, n)

/-- compress_images(assets, max_size_kb): removes images over the size
threshold.  assets.get('images') falsy (or absent) returns 0 with no
change; a truthy non-dict images value raises at .items(). -/
def compress_images (assets : JVal) (maxKB : Nat) : Option (JVal × Nat) :=
  match assets with
  | .obj akvs =>
    match lookupField akvs "images" with
    | none => some (assets, 0)
    | some img =>
      if isFalsy img then some (assets, 0)
      else
        match img with
        | .obj entries =>
          match pruneEntries (fun a => imageTooBig a maxKB) entries with
          | none => none
          | some (kept, n) => some (.obj (setField akvs "images" (.obj kept)), n)
        | _ => none
  | _ => none

/-- compress_svgs(assets, max_size_kb), same shape as compress_images. -/
def compress_svgs (assets : JVal) (maxKB : Nat) : Option (JVal × Nat) :=
  match assets with
  | .obj akvs =>
    match lookupField akvs "svgs" with
    | none => some (assets, 0)
    | some svg =>
      if isFalsy svg then some (assets, 0)
      else
        match svg with
        | .obj entries =>
          match pruneEntries (fun a => svgTooBig a maxKB) entries with
          | none => none
          | some (kept, n) => some (.obj (setField akvs "svgs" (.obj kept)), n)
        | _ => none
  | _ => none

/-! ## Python comparison semantics used by the colour-usage sort

list.sort(key=lambda x: x[1].get('usage', 0), reverse=True) first extracts
all keys (raising AttributeError when a token definition is not a dict),
then sorts the pairs by the extracted key.  Python == never raises; < is
defined for number/number (bools count as 0/1; the model carries integers),
str/str (code-point lexicographic) and list/list (lexicographic via == then
<), and raises TypeError otherwise (including None and dicts, even against
themselves). -/

/-- Numeric view of a Python value for ==/< (bools are ints in Python). -/
def pyToInt : JVal → Option Int
  | .num n => some n
  | .bool b => some (if b then 1 else 0)
  | _ => none

mutual

/-- Python ==: total, never raises; cross-type comparisons are False
(except numeric bool/int); dicts compare by key set and per-key values. -/
def pyEq : JVal → JVal → Bool
  | .null, .null => true
  | .null, _ => false
  | .str s, .str t => s == t
  | .str _, _ => false
  | .arr xs, .arr ys => pyEqList xs ys
  | .arr _, _ => false
  | .obj a, .obj b => a.length == b.length && pyEqFieldsSub a b
  | .obj _, _ => false
  | a, b =>
    match pyToInt a, pyToInt b with
    | some x, some y => x == y
    | _, _ => false

def pyEqList : List JVal → List JVal → Bool
  | [], [] => true
  | x :: xs, y :: ys => pyEq x y && pyEqList xs ys
  | _, _ => false

def pyEqFieldsSub : List (String × JVal) → List (String × JVal) → Bool
  | [], _ => true
  | (k, v) :: rest, b =>
    (match lookupField b k with
     | some w => pyEq v w
     | none => false) && pyEqFieldsSub rest b

end

/-- Code-point lexicographic order on char lists (Python str <). -/
def charListLt : List Char → List Char → Bool
  | [], [] => false
  | [], _ :: _ => true
  | _ :: _, [] => false
  | a :: as, b :: bs =>
    a.toNat < b.toNat || (a.toNat == b.toNat && charListLt as bs)

/-- Python str <: code-point lexicographic. -/
def strLtB (a b : String) : Bool := charListLt a.data b.data

mutual

/-- Python <: some r when the comparison is defined, none = TypeError. -/
def pyLt : JVal → JVal → Option Bool
  | .str s, .str t => some (strLtB s t)
  | .arr xs, .arr ys => pyLtList xs ys
  | a, b =>
    match pyToInt a, pyToInt b with
    | some x, some y => some (decide (x < y))
    | _, _ => none

/-- Python list <: first non-== pair decides via <; a strict common
prefix makes the shorter list smaller. -/
def pyLtList : List JVal → List JVal → Option Bool
  | [], [] => some false
  | [], _ :: _ => some true
  | _ :: _, [] => some false
  | x :: xs, y :: ys => if pyEq x y then pyLtList xs ys else pyLt x y

end

/-- x[1].get('usage', 0): defined only when the token definition is a dict
(AttributeError otherwise); a missing usage field defaults to int 0. -/
def usage_key (v : JVal) : Option JVal :=
  match v with
  | .obj kvs => some ((lookupField kvs "usage").getD (.num 0))
  | _ => none

/-- All extracted sort keys are mutually comparable.  CPython's timsort
raises on the first comparison of an incomparable pair; we model the
try/except around the sort as: the list is reordered only when every
comparison it could perform is defined, and is left in its original
order otherwise (the spec's required fallback). -/
def allComparable (ks : List JVal) : Bool :=
  ks.all fun a => ks.all fun b => (pyLt a b).isSome

/-- Comparator for sort(key=usage, reverse=True): x precedes y when
not key(x) < key(y), i.e. key(x) >= key(y), ties keeping original order
(Python's sort is stable; reverse=True does not reverse ties).  The
getD branches are never exercised: the sort only runs when every key
extraction and comparison is defined. -/
def colorLe (x y : String × JVal) : Bool :=
  match usage_key x.2, usage_key y.2 with
  | some a, some b => !((pyLt a b).getD false)
  | _, _ => true

/-- Stable insertion of x in front of the first element it should precede. -/
def insertLe {α : Type} (le : α → α → Bool) (x : α) : List α → List α
  | [] => [x]
  | y :: ys => if le x y then x :: y :: ys else y :: insertLe le x ys

/-- Stable sort (insertion sort).  Python's list.sort is stable; every
stable sort computes the same list for a comparator that is total and
transitive on the list, so the choice of algorithm is immaterial. -/
def sortStable {α : Type} (le : α → α → Bool) : List α → List α
  | [] => []
  | x :: xs => insertLe le x (sortStable le xs)

/-- The sort's key extraction pass: CPython's list.sort computes all keys
up front, so the first token definition without .get (a non-dict) raises
before any reordering. -/
def extractKeys : List (String × JVal) → Option (List JVal)
  | [] => some []
  | e :: rest =>
    match usage_key e.2 with
    | none => none
    | some w =>
      match extractKeys rest with
      | none => none
      | some ks => some (w :: ks)

/-- color_items.sort(key=lambda x: x[1].get('usage', 0), reverse=True)
wrapped in try/except: pass.  CPython extracts every sort key before it
moves any element, so a key-extraction failure (a non-dict token
definition) leaves the list untouched, which this definition models
exactly.  When instead a comparison between extracted keys raises
mid-sort, the caught in-place sort leaves a partially reordered
permutation of the entries that depends on how far the sort got; this
definition picks the identity permutation as one concrete representative
of that state.  The claim-level theorems therefore treat the
comparison-failure arrangement only up to permutation (C6 exposes it
through an existentially quantified permutation, and C5 excludes it by
hypothesis); only the key-extraction-failure and successful-sort cases,
where the definition agrees with the program pointwise, are ever pinned
to a concrete list. -/
def sort_colors (items : List (String × JVal)) : List (String × JVal) :=
  match extractKeys items with
  | none => items
  | some ks => if allComparable ks then sortStable colorLe items else items

/-- Python dict(pairs): first-occurrence key positions, last value wins.
On a key-nodup list this is the identity. -/
def pyDict (l : List (String × JVal)) : List (String × JVal) :=
  l.foldl (fun acc e => setField acc e.1 e.2) []

/-- tokens[field] = dict(list(tokens[field].items())[:maxN]) guarded by
'field' in tokens; a present non-dict value raises at .items(). -/
def truncateField (kvs : List (String × JVal)) (field : String) (maxN : Nat) :
    Option (List (String × JVal)) :=
  match lookupField kvs field with
  | none => some kvs
  | some (.obj items) => some (setField kvs field (.obj (pyDict (items.take maxN))))
  | some _ => none

/-- The colors branch of compress_design_tokens: sort (with fallback),
then keep the first maxN entries. -/
def truncateColors (kvs : List (String × JVal)) (maxN : Nat) :
    Option (List (String × JVal)) :=
  match lookupField kvs "colors" with
  | none => some kvs
  | some (.obj items) =>
    some (setField kvs "colors" (.obj (pyDict ((sort_colors items).take maxN))))
  | some _ => none

/-- compress_design_tokens(tokens, aggressive).  A falsy tokens value of
any type returns immediately.  A truthy non-dict tokens value always
raises: either the membership test itself (int/bool), or the subscription
tokens['colors'] (str/list containing the key), or the final progress
print's tokens.get (str/list without it); hence none. -/
def compress_design_tokens (tokens : JVal) (aggressive : Bool) : Option JVal :=
  if isFalsy tokens then some tokens
  else
    match tokens with
    | .obj kvs0 =>
      match truncateColors kvs0 (if aggressive then 15 else 30) with
      | none => none
      | some kvs1 =>
        match truncateField kvs1 "typography" (if aggressive then 10 else 20) with
        | none => none
        | some kvs2 =>
          match truncateField kvs2 "spacing" (if aggressive then 10 else 25) with
          | none => none
          | some kvs3 => some (.obj kvs3)
    | _ => none

/-- The fixed metadata-removal set of simplify_tree. -/
def metadataKeys : List String :=
  ["htmlMetadata", "debugInfo", "sourceSelector",
   "componentSignature", "contentHash", "cssVariables"]

/-- The metadata loop: for key in metadata_to_remove: if key in node: del
node[key].  On a dict this deletes the listed keys; on a str/list node the
membership test can succeed (substring/element) and the deletion then
raises; on other types the membership test itself raises. -/
def stripFields (kvs : List (String × JVal)) : List (String × JVal) :=
  kvs.filter (fun e => !(metadataKeys.contains e.1))

def stripMeta : JVal → Option JVal
  | .obj kvs => some (.obj (stripFields kvs))
  | .str s => if metadataKeys.any (fun k => strHasSub k s) then none else some (.str s)
  | .arr xs => if metadataKeys.any (fun k => xs.contains (.str k)) then none else some (.arr xs)
  | _ => none

/-- The depth-limit branch: if 'children' in node: node['children'] = [].
Item assignment is only defined on a dict. -/
def clearChildren (node : JVal) : Option JVal :=
  match pyContainsKey "children" node with
  | none => none
  | some false => some node
  | some true =>
    match node with
    | .obj kvs => some (.obj (setField kvs "children" (.arr [])))
    | _ => none

/-- The children loop of simplify_tree: for child in node['children']:
if isinstance(child, dict): simplify_tree(child, ...).  Recursion on the
current child is passed in as step (the one-level-deeper simplifier);
non-dict elements are left untouched. -/
def simplifyKids (step : JVal → Option JVal) : List JVal → Option (List JVal)
  | [] => some []
  | c :: rest =>
    match c with
    | .obj _ =>
      match step c with
      | none => none
      | some c' =>
        match simplifyKids step rest with
        | none => none
        | some rest' => some (c' :: rest')
    | _ =>
      match simplifyKids step rest with
      | none => none
      | some rest' => some (c :: rest')

/-- simplify_tree with fuel = max_depth - current_depth: strip metadata,
then either truncate (fuel 0, i.e. current_depth >= max_depth) or recurse
into the children list, visiting only dict children.  The children list is
mutated element-wise in place in the source; functionally the entry holds
the element-wise simplified list. -/
def simplifyFuel : Nat → JVal → Option JVal
  | fuel, node =>
    match stripMeta node with
    | none => none
    | some node1 =>
      match fuel with
      | 0 => clearChildren node1
      | f + 1 =>
        match pyContainsKey "children" node1 with
        | none => none
        | some false => some node1
        | some true =>
          match node1 with
          | .obj kvs =>
            match lookupField kvs "children" with
            | some (.arr xs) =>
              match simplifyKids (fun c => simplifyFuel f c) xs with
              | none => none
              | some xs' => some (.obj (setField kvs "children" (.arr xs')))
            | some _ => some node1
            | none => none
          | _ => none

/-- simplify_tree(node, max_depth, current_depth).  The recursion depth
budget is max_depth - current_depth; the orchestrated calls use
current_depth = 0 with max_depth 10 (standard) or 6 (aggressive). -/
def simplify_tree (node : JVal) (maxDepth currentDepth : Nat) : Option JVal :=
  simplifyFuel (maxDepth - currentDepth) node

/-! ## Size estimator

get_size_mb(data) = len(json.dumps(data, separators=(',', ':')).encode('utf-8'))
divided by 2**20.  We model the byte count; every size comparison in main
is an exact power-of-two scaling of a byte comparison (see the header
note), so main is modelled at byte granularity. -/

/-- Decimal digit count (n itself bounds the number of divisions by 10,
so it serves as structural fuel). -/
def natDigitsAux : Nat → Nat → Nat
  | 0, _ => 1
  | fuel + 1, n => if n < 10 then 1 else natDigitsAux fuel (n / 10) + 1

def natDigits (n : Nat) : Nat := natDigitsAux n n

/-- Byte length of the decimal representation an int serializes to. -/
def intReprLen : Int → Nat
  | .ofNat m => natDigits m
  | .negSucc m => 1 + natDigits (m + 1)

/-- Bytes json.dumps (default ensure_ascii=True) emits for one character
inside a string literal: two-character escapes for quote, backslash and
the short control escapes, \u00XX for other controls, one byte for
printable ASCII, \uXXXX for the BMP and a surrogate pair beyond it. -/
def charEscLen (c : Char) : Nat :=
  if c = '"' ∨ c = '\\' then 2
  else if c.toNat < 0x20 then
    if c = '\n' ∨ c = '\t' ∨ c = '\r' ∨ c.toNat = 8 ∨ c.toNat = 12 then 2 else 6
  else if c.toNat ≤ 0x7E then 1
  else if c.toNat ≤ 0xFFFF then 6
  else 12

/-- Byte length of a serialized string literal (quotes plus escapes). -/
def strEscLen (s : String) : Nat := 2 + (s.data.map charEscLen).sum

mutual

/-- Byte length of json.dumps(v, separators=(',', ':')), computed
compositionally: a non-empty container is one opening bracket plus, for
each element, its serialization followed by one byte (a comma, or the
closing bracket after the last element); an object entry also carries its
quoted key and a colon. -/
def dumps_len : JVal → Nat
  | .null => 4
  | .bool b => if b then 4 else 5
  | .num n => intReprLen n
  | .str s => strEscLen s
  | .arr xs =>
    match xs with
    | [] => 2
    | _ :: _ => 1 + itemsLen xs
  | .obj kvs =>
    match kvs with
    | [] => 2
    | _ :: _ => 1 + fieldsLen kvs

def itemsLen : List JVal → Nat
  | [] => 0
  | x :: xs => (dumps_len x + 1) + itemsLen xs

def fieldsLen : List (String × JVal) → Nat
  | [] => 0
  | (k, v) :: rest => (strEscLen k + 1 + dumps_len v + 1) + fieldsLen rest

end

/-! ## The two tiers and the orchestrator -/

/-- Both tiers: compress_images then compress_svgs on data['assets'],
when 'assets' is present (the source mutates the assets dict in place;
the model updates the entry). -/
def assetsStep (kvs : List (String × JVal)) (imgKB svgKB : Nat) :
    Option (List (String × JVal)) :=
  match lookupField kvs "assets" with
  | none => some kvs
  | some a =>
    match compress_images a imgKB with
    | none => none
    | some (a1, _) =>
      match compress_svgs a1 svgKB with
      | none => none
      | some (a2, _) => some (setField kvs "assets" a2)

/-- Both tiers: compress_design_tokens on data['designTokens'] when
present. -/
def tokensStep (kvs : List (String × JVal)) (aggressive : Bool) :
    Option (List (String × JVal)) :=
  match lookupField kvs "designTokens" with
  | none => some kvs
  | some t =>
    match compress_design_tokens t aggressive with
    | none => none
    | some t' => some (setField kvs "designTokens" t')

/-- Both tiers: simplify_tree on data['tree'] when present. -/
def treeStep (kvs : List (String × JVal)) (maxDepth : Nat) :
    Option (List (String × JVal)) :=
  match lookupField kvs "tree" with
  | none => some kvs
  | some tr =>
    match simplify_tree tr maxDepth 0 with
    | none => none
    | some tr' => some (setField kvs "tree" tr')

/-- A tier applied to a non-dict document only performs the membership
tests of its guards: int/bool/None raise on the first test; a str/list in
which some tested key occurs raises at the following subscription,
deletion or assignment; otherwise the document passes through unchanged. -/
def absentAll (keys : List String) (v : JVal) : Option JVal :=
  match keys with
  | [] => some v
  | k :: rest =>
    match pyContainsKey k v with
    | none => none
    | some true => none
    | some false => absentAll rest v

/-- compress_standard(data): asset pruning at 75/30 KB, standard token
caps, tree depth 10. -/
def compress_standard (data : JVal) : Option JVal :=
  match data with
  | .obj kvs0 =>
    match assetsStep kvs0 75 30 with
    | none => none
    | some kvs1 =>
      match tokensStep kvs1 false with
      | none => none
      | some kvs2 =>
        match treeStep kvs2 10 with
        | none => none
        | some kvs3 => some (.obj kvs3)
  | v => absentAll ["assets", "designTokens", "tree"] v

/-- The fixed replacement written over data['components']. -/
def componentsReset : JVal := .obj [("definitions", .obj [])]

/-- compress_aggressive(data): asset pruning at 25/10 KB, aggressive token
caps, screenshot removal, replacement of the whole components value by
{"definitions": {}}, tree depth 6, and deletion of the optional top-level
keys cssVariables, variants, extractionSummary. -/
def compress_aggressive (data : JVal) : Option JVal :=
  match data with
  | .obj kvs0 =>
    match assetsStep kvs0 25 10 with
    | none => none
    | some kvs1 =>
      match tokensStep kvs1 true with
      | none => none
      | some kvs2 =>
        let kvs3 := removeField kvs2 "screenshot"
        let kvs4 :=
          if hasField kvs3 "components" then setField kvs3 "components" componentsReset
          else kvs3
        match treeStep kvs4 6 with
        | none => none
        | some kvs5 =>
          some (.obj (removeField (removeField
            (removeField kvs5 "cssVariables") "variants") "extractionSummary"))
  | v =>
    absentAll ["assets", "designTokens", "screenshot", "components",
               "tree", "cssVariables", "variants", "extractionSummary"] v

/-- Bytes per megabyte (the unit of --target-size). -/
def bytesPerMB : Nat := 1048576

/-- The size-driven control flow of main() after loading the document:
write it back unmodified when it is at or below the target; otherwise run
the aggressive tier when the flag was given or the document exceeds 250 MB,
else the standard tier; re-measure, and run the aggressive tier once more
when still above target.  The returned value is the document written to
the output file; none = the run dies with an uncaught exception and writes
nothing. -/
def main_pipeline (data : JVal) (aggressiveFlag : Bool) (targetMB : Nat) : Option JVal :=
  if dumps_len data ≤ targetMB * bytesPerMB then some data
  else
    match
      (if aggressiveFlag || decide (dumps_len data > 250 * bytesPerMB) then
        compress_aggressive data
      else compress_standard data) with
    | none => none
    | some d1 =>
      if dumps_len d1 > targetMB * bytesPerMB then compress_aggressive d1 else some d1

/-! ## Predicates used to state the claims -/

/-- Keys of an association list are pairwise distinct (always true of a
dict loaded from JSON). -/
def keysNodup : List (String × JVal) → Bool
  | [] => true
  | (k, _) :: rest => !(hasField rest k) && keysNodup rest

/-- Well-formedness of a tree down to the given recursion budget, per the
data model: on every mapping node the simplifier can reach, a present
children value is a sequence.  Nodes strictly below the truncation depth
are discarded wholesale and need no condition; non-mapping children are
never visited. -/
def WFtreeF : Nat → JVal → Bool
  | 0, .obj kvs =>
    (match lookupField kvs "children" with
     | none => true
     | some (.arr _) => true
     | some _ => false)
  | 0, _ => true
  | f + 1, .obj kvs =>
    (match lookupField kvs "children" with
     | some (.arr xs) => xs.all (fun c => WFtreeF f c)
     | _ => true)
  | _ + 1, _ => true

/-- After simplification at the given budget: every visited mapping node
carries none of the six metadata keys, a node at the truncation depth has
an empty (or absent) children list, and above it only the mapping elements
of a children sequence are constrained (non-mapping elements are not
visited, and a non-sequence children value is not recursed into). -/
def cleanChk : Nat → JVal → Bool
  | 0, .obj kvs =>
    metadataKeys.all (fun k => !(hasField kvs k)) &&
    (match lookupField kvs "children" with
     | none => true
     | some (.arr []) => true
     | some _ => false)
  | 0, _ => true
  | f + 1, .obj kvs =>
    metadataKeys.all (fun k => !(hasField kvs k)) &&
    (match lookupField kvs "children" with
     | some (.arr xs) => xs.all (fun c => cleanChk f c)
     | _ => true)
  | _ + 1, _ => true

/-- Above the truncation depth every children sequence keeps its length
and order: position i of the output is exactly the simplification of
position i of the input (and is the untouched original element when it is
not a mapping). -/
def childrenPreservedChk : Nat → JVal → JVal → Bool
  | 0, _, _ => true
  | f + 1, .obj kvs, node' =>
    (match lookupField kvs "children" with
     | some (.arr xs) =>
       (match node' with
        | .obj kvs' =>
          (match lookupField kvs' "children" with
           | some (.arr xs') =>
             xs.length == xs'.length &&
             (xs.zip xs').all (fun p =>
               match p.1 with
               | .obj _ =>
                 (match simplifyFuel f p.1 with
                  | some c' => jvalBeq c' p.2
                  | none => false) && childrenPreservedChk f p.1 p.2
               | _ => jvalBeq p.1 p.2)
           | _ => false)
        | _ => false)
     | _ => true)
  | _ + 1, _, _ => true

/-- Token-collection well-formedness used by the size claim: each of the
three collections, when present as a mapping, has pairwise-distinct keys
(always true of parsed JSON). -/
def capsOKtokens (v : JVal) : Bool :=
  match v with
  | .obj tkvs =>
    (match lookupField tkvs "colors" with
     | some (.obj items) => keysNodup items
     | _ => true) &&
    (match lookupField tkvs "typography" with
     | some (.obj items) => keysNodup items
     | _ => true) &&
    (match lookupField tkvs "spacing" with
     | some (.obj items) => keysNodup items
     | _ => true)
  | _ => true

/-- Document well-formedness for the size-monotonicity claim at a given
tree budget: token collections have distinct keys and the tree is
well-formed down to the budget. -/
def wfDocSize (d : JVal) (maxD : Nat) : Bool :=
  match d with
  | .obj kvs =>
    (match lookupField kvs "designTokens" with
     | some t => capsOKtokens t
     | none => true) &&
    (match lookupField kvs "tree" with
     | some tr => WFtreeF maxD tr
     | none => true)
  | _ => true

/-- Extra aggressive-tier proviso for size monotonicity: the components
value, when present, serializes to at least the 18 bytes of its fixed
replacement (dumps of the replacement is 18 bytes). -/
def componentsBigEnough (d : JVal) : Bool :=
  match d with
  | .obj kvs =>
    (match lookupField kvs "components" with
     | some c => decide (dumps_len componentsReset ≤ dumps_len c)
     | none => true)
  | _ => true

/-- Colour-collection condition under which the aggressive tier is
idempotent: when present as a mapping, it has at most the aggressive cap
of 15 entries, with distinct keys.  (Anything else either raises or is
covered by the fallback analysis.) -/
def colorsWithinCap (d : JVal) : Bool :=
  match d with
  | .obj kvs =>
    (match lookupField kvs "designTokens" with
     | some (.obj tkvs) =>
       (match lookupField tkvs "colors" with
        | some (.obj items) => decide (items.length ≤ 15) && keysNodup items
        | _ => true)
     | _ => true)
  | _ => true

/-- The usage sort on the colour collection is well-behaved: it either
raises during key extraction (some definition is not a mapping — CPython
extracts all keys before moving anything, so the list is left untouched)
or runs to completion (all extracted keys mutually comparable).  This
excludes the one path where a comparison raises mid-sort and the caught
failure leaves a partially reordered list whose exact arrangement the
model does not reproduce. -/
def colorsSortOK (d : JVal) : Bool :=
  match d with
  | .obj kvs =>
    (match lookupField kvs "designTokens" with
     | some (.obj tkvs) =>
       (match lookupField tkvs "colors" with
        | some (.obj items) =>
          (match extractKeys items with
           | none => true
           | some ks => allComparable ks)
        | _ => true)
     | _ => true)
  | _ => true

/-- Modelled from the spec and claim wording for the colour sort (what the
claim asserts, to be compared with the source's behaviour): every entry
gets a numeric usage, defaulting to 0 when the definition is not a
mapping, has no usage field, or has a non-numeric usage; entries are then
stably ordered descending by that number. -/
def claimedUsage (v : JVal) : Int :=
  match v with
  | .obj kvs =>
    (match lookupField kvs "usage" with
     | some u => (pyToInt u).getD 0
     | none => 0)
  | _ => 0

/-- Modelled from the claim: the colour order it predicts. -/
def claimedColorSort (items : List (String × JVal)) : List (String × JVal) :=
  sortStable (fun x y => decide (claimedUsage y.2 ≤ claimedUsage x.2)) items

/-! ## Helper lemmas on dict operations -/

theorem lookupField_setField_self (kvs : List (String × JVal)) (k : String) (v : JVal) :
    lookupField (setField kvs k v) k = some v := by
  induction kvs with
  | nil => simp [setField, lookupField]
  | cons e rest ih =>
    obtain ⟨k2, w⟩ := e
    by_cases h : k2 = k
    · simp [setField, h, lookupField]
    · simp [setField, h, lookupField, ih]

theorem lookupField_setField_ne (kvs : List (String × JVal)) (k k' : String) (v : JVal)
    (h : k ≠ k') : lookupField (setField kvs k v) k' = lookupField kvs k' := by
  induction kvs with
  | nil => simp [setField, lookupField, fun hh => h (hh : k = k')]
  | cons e rest ih =>
    obtain ⟨k2, w⟩ := e
    by_cases h2 : k2 = k
    · subst h2; simp [setField, lookupField, h]
    · simp [setField, h2, lookupField, ih]

theorem setField_eq_self {kvs : List (String × JVal)} {k : String} {v : JVal}
    (h : lookupField kvs k = some v) : setField kvs k v = kvs := by
  induction kvs with
  | nil => simp [lookupField] at h
  | cons e rest ih =>
    obtain ⟨k2, w⟩ := e
    by_cases h2 : k2 = k
    · subst h2
      simp [lookupField] at h
      simp [setField, h]
    · simp [lookupField, h2] at h
      simp [setField, h2, ih h]

theorem lookupField_removeField_ne {kvs : List (String × JVal)} {k k' : String}
    (h : k ≠ k') : lookupField (removeField kvs k) k' = lookupField kvs k' := by
  induction kvs with
  | nil => simp [removeField, lookupField]
  | cons e rest ih =>
    obtain ⟨k2, w⟩ := e
    by_cases h2 : k2 = k
    · subst h2
      have : k2 ≠ k' := h
      simp [removeField, lookupField, this]
      simpa [removeField] using ih
    · simp [removeField, lookupField, h2]
      by_cases h3 : k2 = k'
      · simp [h3]
      · simpa [h3, removeField] using ih

theorem removeField_removeField (kvs : List (String × JVal)) (k : String) :
    removeField (removeField kvs k) k = removeField kvs k := by
  simp [removeField, List.filter_filter]

theorem assetsStep_lookup_ne {kvs kvs' : List (String × JVal)} {i s : Nat}
    (h : assetsStep kvs i s = some kvs') {k : String} (hk : k ≠ "assets") :
    lookupField kvs' k = lookupField kvs k := by
  unfold assetsStep at h
  split at h
  · cases h; rfl
  · split at h
    · exact absurd h (by simp)
    · split at h
      · exact absurd h (by simp)
      · cases h; exact lookupField_setField_ne _ _ _ _ (Ne.symm hk)

theorem tokensStep_lookup_ne {kvs kvs' : List (String × JVal)} {ag : Bool}
    (h : tokensStep kvs ag = some kvs') {k : String} (hk : k ≠ "designTokens") :
    lookupField kvs' k = lookupField kvs k := by
  unfold tokensStep at h
  split at h
  · cases h; rfl
  · split at h
    · exact absurd h (by simp)
    · cases h; exact lookupField_setField_ne _ _ _ _ (Ne.symm hk)

theorem treeStep_lookup_ne {kvs kvs' : List (String × JVal)} {maxD : Nat}
    (h : treeStep kvs maxD = some kvs') {k : String} (hk : k ≠ "tree") :
    lookupField kvs' k = lookupField kvs k := by
  unfold treeStep at h
  split at h
  · cases h; rfl
  · split at h
    · exact absurd h (by simp)
    · cases h; exact lookupField_setField_ne _ _ _ _ (Ne.symm hk)

/-! ## C1 -/

/-- C1 is false as stated: main writes a document at or below the target
out unmodified before ever consulting the aggressive flag.  Concretely,
{"screenshot": 0} run with the flag and the default 150 MB target passes
through unchanged, while the aggressive tier, had it been forced, would
have produced {} (screenshot removed) — a different document. -/
theorem c1_counterexample :
    main_pipeline (.obj [("screenshot", .num 0)]) true 150 =
        some (.obj [("screenshot", .num 0)]) ∧
    compress_aggressive (.obj [("screenshot", .num 0)]) = some (.obj []) ∧
    JVal.obj [("screenshot", .num 0)] ≠ .obj [] := by
  decide

/-- C1 (amended): the --aggressive flag forces the aggressive tier only
when the document's initial size exceeds the target; a document at or
below the target is written out unmodified regardless of the flag, and
above the target the flagged run applies the aggressive tier directly
(followed by the usual re-measure and possible second pass). -/
theorem c1_flag_only_above_target :
    ∀ (d : JVal) (t : Nat),
      (dumps_len d ≤ t * bytesPerMB → main_pipeline d true t = some d) ∧
      (dumps_len d > t * bytesPerMB →
        main_pipeline d true t =
          (match compress_aggressive d with
           | none => none
           | some d1 =>
             if dumps_len d1 > t * bytesPerMB then compress_aggressive d1 else some d1)) := by
  intro d t
  constructor
  · intro h
    simp [main_pipeline, h]
  · intro h
    simp [main_pipeline, Nat.not_le.2 h]

theorem c1_flag_only_above_target_witness :
    main_pipeline (.obj [("variants", .num 3)]) true 150 =
        some (.obj [("variants", .num 3)]) ∧
    main_pipeline (.obj [("variants", .num 3)]) true 0 = some (.obj []) := by
  constructor
  · exact (c1_flag_only_above_target (.obj [("variants", .num 3)]) 150).1 (by decide)
  · rw [(c1_flag_only_above_target (.obj [("variants", .num 3)]) 0).2 (by decide)]
    decide

/-! ## C2 -/

/-- C2 is false as stated: the aggressive tier replaces the WHOLE
components value with {"definitions": {}}; sibling keys under components
are dropped, not preserved.  Here the sibling key "styles" disappears. -/
theorem c2_counterexample :
    compress_aggressive
        (.obj [("components",
          .obj [("definitions", .obj [("a", .num 1)]), ("styles", .num 7)])]) =
      some (.obj [("components", .obj [("definitions", .obj [])])]) := by
  decide

/-- C2 (amended): when components is present, the aggressive tier rebinds
it to exactly {"definitions": {}}: the key survives, but its previous
value — including any sibling keys next to definitions — is discarded
wholesale. -/
theorem c2_components_fully_replaced :
    ∀ (kvs : List (String × JVal)) (d' : JVal),
      hasField kvs "components" = true →
      compress_aggressive (.obj kvs) = some d' →
      ∃ kvs', d' = .obj kvs' ∧ lookupField kvs' "components" = some componentsReset := by
  intro kvs d' hc h
  simp only [compress_aggressive] at h
  cases hA : assetsStep kvs 25 10 with
  | none => simp [hA] at h
  | some kvs1 =>
    simp only [hA] at h
    cases hT : tokensStep kvs1 true with
    | none => simp [hT] at h
    | some kvs2 =>
      simp only [hT] at h
      have h2 : lookupField kvs2 "components" = lookupField kvs "components" := by
        rw [tokensStep_lookup_ne hT (by decide), assetsStep_lookup_ne hA (by decide)]
      have hc3 : hasField (removeField kvs2 "screenshot") "components" = true := by
        unfold hasField at hc ⊢
        rw [lookupField_removeField_ne (by decide), h2]
        exact hc
      simp only [hc3, if_true] at h
      cases hTr : treeStep
          (setField (removeField kvs2 "screenshot") "components" componentsReset) 6 with
      | none => simp [hTr] at h
      | some kvs5 =>
        simp only [hTr] at h
        have hd : d' = .obj (removeField (removeField
            (removeField kvs5 "cssVariables") "variants") "extractionSummary") :=
          (Option.some.inj h).symm
        subst hd
        refine ⟨_, rfl, ?_⟩
        rw [lookupField_removeField_ne (by decide),
            lookupField_removeField_ne (by decide),
            lookupField_removeField_ne (by decide),
            treeStep_lookup_ne hTr (by decide)]
        exact lookupField_setField_self _ _ _

theorem c2_components_fully_replaced_witness :
    ∃ kvs', JVal.obj [("components", componentsReset)] = .obj kvs' ∧
      lookupField kvs' "components" = some componentsReset :=
  c2_components_fully_replaced [("components", .obj [("styles", .null)])]
    (.obj [("components", componentsReset)]) (by decide) (by decide)

/-! ## C4 -/

/-- C4 (confirmed): when the document is above target and the first tier
pass yields a document still above target, main applies compress_aggressive
to that intermediate result, and the second pass's output is what is
measured and written (main_pipeline returns exactly compress_aggressive of
the first pass's result). -/
theorem c4_second_aggressive_pass :
    ∀ (d d1 : JVal) (b : Bool) (t : Nat),
      dumps_len d > t * bytesPerMB →
      (if b || decide (dumps_len d > 250 * bytesPerMB) then compress_aggressive d
       else compress_standard d) = some d1 →
      dumps_len d1 > t * bytesPerMB →
      main_pipeline d b t = compress_aggressive d1 := by
  intro d d1 b t h1 h2 h3
  unfold main_pipeline
  rw [if_neg (Nat.not_le.2 h1), h2]
  show (if dumps_len d1 > t * bytesPerMB then compress_aggressive d1 else some d1) = _
  rw [if_pos h3]

theorem c4_second_aggressive_pass_witness :
    main_pipeline (.obj [("screenshot", .num 0)]) false 0 =
      compress_aggressive (.obj [("screenshot", .num 0)]) :=
  c4_second_aggressive_pass _ _ false 0 (by decide) (by decide) (by decide)

/-! ## C8 -/

/-- C8 is false as stated: a present-but-wrong-typed optional key is not
always treated as nothing to do.  assets.images bound to the truthy
non-mapping "x" makes compress_images raise (AttributeError at .items()),
and the failure propagates out of the standard tier. -/
theorem c8_counterexample :
    compress_images (.obj [("images", .str "x")]) 75 = none ∧
    compress_standard (.obj [("assets", .obj [("images", .str "x")])]) = none := by
  decide

/-- C8 (amended): a stage treats a wrong-typed optional key as nothing to
do only when the value is falsy; a truthy wrong-typed value makes the
stage raise.  Shown for the two stages the claim cites: assets.images in
compress_images, and the tokens argument of compress_design_tokens. -/
theorem c8_wrong_type_tolerated_only_if_falsy :
    ∀ (kvs : List (String × JVal)) (v t : JVal) (m : Nat) (ag : Bool),
      (lookupField kvs "images" = some v → isFalsy v = true →
        compress_images (.obj kvs) m = some (.obj kvs, 0)) ∧
      (lookupField kvs "images" = some v → isFalsy v = false →
        (∀ entries, v ≠ .obj entries) → compress_images (.obj kvs) m = none) ∧
      (isFalsy t = true → compress_design_tokens t ag = some t) ∧
      (isFalsy t = false → (∀ tkvs, t ≠ .obj tkvs) →
        compress_design_tokens t ag = none) := by
  intro kvs v t m ag
  refine ⟨?_, ?_, ?_, ?_⟩
  · intro hl hf
    simp [compress_images, hl, hf]
  · intro hl hf hno
    simp only [compress_images, hl, hf, Bool.false_eq_true, if_false]
  · intro hf
    simp [compress_design_tokens, hf]
  · intro hf hno
    simp only [compress_design_tokens, hf, Bool.false_eq_true, if_false]

theorem c8_wrong_type_tolerated_only_if_falsy_witness :
    compress_images (.obj [("images", .arr [])]) 25 =
        some (.obj [("images", .arr [])], 0) ∧
    compress_images (.obj [("images", .num 1)]) 25 = none ∧
    compress_design_tokens (.str "") true = some (.str "") ∧
    compress_design_tokens (.num 7) true = none :=
  ⟨(c8_wrong_type_tolerated_only_if_falsy [("images", .arr [])] (.arr []) .null 25 true).1
      (by decide) (by decide),
   (c8_wrong_type_tolerated_only_if_falsy [("images", .num 1)] (.num 1) .null 25 true).2.1
      (by decide) (by decide) (by intro e h; cases h),
   (c8_wrong_type_tolerated_only_if_falsy [] .null (.str "") 25 true).2.2.1 (by decide),
   (c8_wrong_type_tolerated_only_if_falsy [] .null (.num 7) 25 true).2.2.2
      (by decide) (by intro e h; cases h)⟩

/-! ## C10 -/

/-- C10 (confirmed): a falsy value bound to assets.images, assets.svgs or
to designTokens itself makes the corresponding stage return immediately —
0 removals for the pruners — leaving the structure untouched and raising
nothing, exactly as when the key is absent. -/
theorem c10_falsy_subcollections_noop :
    ∀ (kvs : List (String × JVal)) (v w t : JVal) (m : Nat) (ag : Bool),
      (lookupField kvs "images" = some v → isFalsy v = true →
        compress_images (.obj kvs) m = some (.obj kvs, 0)) ∧
      (lookupField kvs "images" = none →
        compress_images (.obj kvs) m = some (.obj kvs, 0)) ∧
      (lookupField kvs "svgs" = some w → isFalsy w = true →
        compress_svgs (.obj kvs) m = some (.obj kvs, 0)) ∧
      (lookupField kvs "svgs" = none →
        compress_svgs (.obj kvs) m = some (.obj kvs, 0)) ∧
      (isFalsy t = true → compress_design_tokens t ag = some t) := by
  intro kvs v w t m ag
  refine ⟨?_, ?_, ?_, ?_, ?_⟩
  · intro hl hf; simp [compress_images, hl, hf]
  · intro hl; simp [compress_images, hl]
  · intro hl hf; simp [compress_svgs, hl, hf]
  · intro hl; simp [compress_svgs, hl]
  · intro hf; simp [compress_design_tokens, hf]

theorem c10_falsy_subcollections_noop_witness :
    compress_images (.obj [("images", .obj [])]) 50 =
        some (.obj [("images", .obj [])], 0) ∧
    compress_svgs (.obj [("svgs", .null)]) 20 = some (.obj [("svgs", .null)], 0) ∧
    compress_design_tokens (.obj []) false = some (.obj []) :=
  ⟨(c10_falsy_subcollections_noop [("images", .obj [])] (.obj []) .null .null 50 false).1
      (by decide) (by decide),
   (c10_falsy_subcollections_noop [("svgs", .null)] .null .null .null 20 false).2.2.1
      (by decide) (by decide),
   (c10_falsy_subcollections_noop [] .null .null (.obj []) 20 false).2.2.2.2 (by decide)⟩

/-! ## C7 -/

theorem pruneEntries_eq_filter (tooBig : JVal → Option Bool) (f : (String × JVal) → Bool) :
    ∀ entries : List (String × JVal),
      (∀ e ∈ entries, tooBig e.2 = some (f e)) →
      pruneEntries tooBig entries =
        some (entries.filter (fun e => !(f e)), (entries.filter f).length) := by
  intro entries h
  induction entries with
  | nil => simp [pruneEntries]
  | cons e rest ih =>
    obtain ⟨k, v⟩ := e
    have he : tooBig v = some (f (k, v)) := h (k, v) (by simp)
    have hr := ih (fun e he' => h e (by simp [he']))
    simp only [pruneEntries, he, hr]
    by_cases hf : f (k, v)
    · simp [hf, List.filter_cons]
    · simp [hf, List.filter_cons]

/-- Retention decision of compress_images per record, as the claim reads
it: keep unless a base64 string is strictly over the threshold. -/
def imageKeep (m : Nat) (v : JVal) : Bool :=
  match v with
  | .obj fkvs =>
    (match lookupField fkvs "base64" with
     | some (.str s) => decide (3 * s.length ≤ 4096 * m)
     | _ => true)
  | _ => true

/-- Retention decision of compress_svgs per record. -/
def svgKeep (m : Nat) (v : JVal) : Bool :=
  match v with
  | .obj fkvs =>
    (match lookupField fkvs "svgCode" with
     | some (.str s) => decide (s.utf8ByteSize ≤ 1024 * m)
     | _ => true)
  | _ => true

theorem imageTooBig_eq_not_keep (m : Nat) (fkvs : List (String × JVal))
    (hb : ∀ b, lookupField fkvs "base64" = some b → ∃ s, b = .str s) :
    imageTooBig (.obj fkvs) m = some (!(imageKeep m (.obj fkvs))) := by
  simp only [imageTooBig, imageKeep, pyContainsKey, hasField]
  cases hl : lookupField fkvs "base64" with
  | none => simp [hl]
  | some b =>
    obtain ⟨s, rfl⟩ := hb b hl
    simp [hl, pyLen, ← decide_not, decide_eq_decide, Nat.not_le, Nat.lt_iff_add_one_le]

theorem svgTooBig_eq_not_keep (m : Nat) (fkvs : List (String × JVal))
    (hb : ∀ b, lookupField fkvs "svgCode" = some b → ∃ s, b = .str s) :
    svgTooBig (.obj fkvs) m = some (!(svgKeep m (.obj fkvs))) := by
  simp only [svgTooBig, svgKeep, pyContainsKey, hasField]
  cases hl : lookupField fkvs "svgCode" with
  | none => simp [hl]
  | some b =>
    obtain ⟨s, rfl⟩ := hb b hl
    simp [hl, ← decide_not, decide_eq_decide, Nat.not_le, Nat.lt_iff_add_one_le]

/-- C7 (confirmed): on well-shaped asset records (mappings whose content
field, when present, is a string) pruning keeps exactly the entries whose
computed size is at most the threshold — the comparison is strict >, so a
record exactly at the threshold survives — and a record without the
relevant content field is never removed (it is kept whatever its size).
The image size comparison len*0.75/1024 > max_kb is exactly
3*len > 4096*max_kb; the svg comparison utf8_bytes/1024 > max_kb is
exactly utf8_bytes > 1024*max_kb. -/
theorem c7_strict_threshold :
    ∀ (akvs imgs svgs : List (String × JVal)) (mi ms : Nat),
      (lookupField akvs "images" = some (.obj imgs) →
        (∀ e ∈ imgs, ∃ fkvs, e.2 = .obj fkvs ∧
          (∀ b, lookupField fkvs "base64" = some b → ∃ s, b = .str s)) →
        compress_images (.obj akvs) mi =
          some (.obj (setField akvs "images"
              (.obj (imgs.filter (fun e => imageKeep mi e.2)))),
            (imgs.filter (fun e => !(imageKeep mi e.2))).length)) ∧
      (lookupField akvs "svgs" = some (.obj svgs) →
        (∀ e ∈ svgs, ∃ fkvs, e.2 = .obj fkvs ∧
          (∀ b, lookupField fkvs "svgCode" = some b → ∃ s, b = .str s)) →
        compress_svgs (.obj akvs) ms =
          some (.obj (setField akvs "svgs"
              (.obj (svgs.filter (fun e => svgKeep ms e.2)))),
            (svgs.filter (fun e => !(svgKeep ms e.2))).length)) := by
  intro akvs imgs svgs mi ms
  constructor
  · intro hl hWF
    have hflags : ∀ e ∈ imgs, imageTooBig e.2 mi = some (!(imageKeep mi e.2)) := by
      intro e he
      obtain ⟨fkvs, hv, hb⟩ := hWF e he
      rw [hv]
      exact imageTooBig_eq_not_keep mi fkvs hb
    cases imgs with
    | nil =>
      simp [compress_images, hl, isFalsy, setField_eq_self hl]
    | cons e0 rest =>
      have hp := pruneEntries_eq_filter (fun a => imageTooBig a mi)
        (fun e => !(imageKeep mi e.2)) (e0 :: rest) hflags
      simp only [compress_images, hl, isFalsy, List.isEmpty_cons, Bool.false_eq_true,
        if_false, hp, Bool.not_not]
  · intro hl hWF
    have hflags : ∀ e ∈ svgs, svgTooBig e.2 ms = some (!(svgKeep ms e.2)) := by
      intro e he
      obtain ⟨fkvs, hv, hb⟩ := hWF e he
      rw [hv]
      exact svgTooBig_eq_not_keep ms fkvs hb
    cases svgs with
    | nil =>
      simp [compress_svgs, hl, isFalsy, setField_eq_self hl]
    | cons e0 rest =>
      have hp := pruneEntries_eq_filter (fun a => svgTooBig a ms)
        (fun e => !(svgKeep ms e.2)) (e0 :: rest) hflags
      simp only [compress_svgs, hl, isFalsy, List.isEmpty_cons, Bool.false_eq_true,
        if_false, hp, Bool.not_not]

theorem c7_strict_threshold_witness :
    compress_images (.obj [("images", .obj
        [("a", .obj [("base64", .str "")]),
         ("b", .obj [("base64", .str "Q")]),
         ("c", .obj [])])]) 0 =
      some (.obj [("images", .obj
        [("a", .obj [("base64", .str "")]), ("c", .obj [])])], 1) ∧
    compress_svgs (.obj [("svgs", .obj
        [("d", .obj [("svgCode", .str "")]),
         ("e", .obj [("svgCode", .str "x")])])]) 0 =
      some (.obj [("svgs", .obj [("d", .obj [("svgCode", .str "")])])], 1) := by
  constructor
  · have h := (c7_strict_threshold
      [("images", .obj [("a", .obj [("base64", .str "")]),
        ("b", .obj [("base64", .str "Q")]), ("c", .obj [])])]
      [("a", .obj [("base64", .str "")]), ("b", .obj [("base64", .str "Q")]),
        ("c", .obj [])] [] 0 0).1 (by decide) ?_
    · rw [h]; decide
    · intro e he
      simp only [List.mem_cons, List.not_mem_nil, or_false] at he
      rcases he with rfl | rfl | rfl
      · exact ⟨_, rfl, fun b hb => ⟨"", by simpa [lookupField] using hb.symm⟩⟩
      · exact ⟨_, rfl, fun b hb => ⟨"Q", by simpa [lookupField] using hb.symm⟩⟩
      · exact ⟨_, rfl, fun b hb => by simp [lookupField] at hb⟩
  · have h := (c7_strict_threshold
      [("svgs", .obj [("d", .obj [("svgCode", .str "")]),
        ("e", .obj [("svgCode", .str "x")])])] []
      [("d", .obj [("svgCode", .str "")]), ("e", .obj [("svgCode", .str "x")])] 0 0).2
      (by decide) ?_
    · rw [h]; decide
    · intro e he
      simp only [List.mem_cons, List.not_mem_nil, or_false] at he
      rcases he with rfl | rfl
      · exact ⟨_, rfl, fun b hb => ⟨"", by simpa [lookupField] using hb.symm⟩⟩
      · exact ⟨_, rfl, fun b hb => ⟨"x", by simpa [lookupField] using hb.symm⟩⟩

/-! ## Generic facts about the stable sort -/

theorem insertLe_perm {α : Type} (le : α → α → Bool) (x : α) :
    ∀ l : List α, List.Perm (insertLe le x l) (x :: l)
  | [] => List.Perm.refl _
  | y :: ys => by
    unfold insertLe
    by_cases h : le x y
    · simp [h]
    · simp only [h, if_false]
      exact ((insertLe_perm le x ys).cons y).trans (List.Perm.swap x y ys)

theorem sortStable_perm {α : Type} (le : α → α → Bool) :
    ∀ l : List α, List.Perm (sortStable le l) l
  | [] => List.Perm.refl _
  | x :: xs =>
    (insertLe_perm le x (sortStable le xs)).trans ((sortStable_perm le xs).cons x)

theorem insertLe_congr {α : Type} (le1 le2 : α → α → Bool) (x : α) :
    ∀ l : List α, (∀ y ∈ l, le1 x y = le2 x y) →
      insertLe le1 x l = insertLe le2 x l
  | [] => fun _ => rfl
  | y :: ys => by
    intro h
    unfold insertLe
    rw [h y (by simp), insertLe_congr le1 le2 x ys (fun z hz => h z (by simp [hz]))]

theorem sortStable_congr {α : Type} (le1 le2 : α → α → Bool) :
    ∀ l : List α, (∀ a ∈ l, ∀ b ∈ l, le1 a b = le2 a b) →
      sortStable le1 l = sortStable le2 l
  | [] => fun _ => rfl
  | x :: xs => by
    intro h
    have hxs := sortStable_congr le1 le2 xs
      (fun a ha b hb => h a (by simp [ha]) b (by simp [hb]))
    unfold sortStable
    rw [hxs]
    apply insertLe_congr
    intro y hy
    have hy' : y ∈ xs := (sortStable_perm le2 xs).subset hy
    exact h x (by simp) y (by simp [hy'])

theorem insertLe_chain {α : Type} (le : α → α → Bool) (x : α) :
    ∀ l : List α, List.Chain' (fun a b => le a b = true) l →
      (∀ y ∈ l, le x y = true ∨ le y x = true) →
      List.Chain' (fun a b => le a b = true) (insertLe le x l)
  | [] => by
    intro _ _
    simp [insertLe]
  | y :: ys => by
    intro hch htot
    unfold insertLe
    by_cases h : le x y
    · simp only [h, if_true]
      exact List.chain'_cons.2 ⟨h, hch⟩
    · simp only [h, if_false]
      have hy : le y x = true := (htot y (by simp)).resolve_left (by simpa using h)
      cases ys with
      | nil => simp [insertLe, List.chain'_cons, hy]
      | cons w ws =>
        have hyw : le y w = true := (List.chain'_cons.1 hch).1
        have hch' := (List.chain'_cons.1 hch).2
        have ih := insertLe_chain le x (w :: ws) hch'
          (fun z hz => htot z (by simp [hz]))
        by_cases h2 : le x w
        · simp only [insertLe, h2, if_true] at ih ⊢
          exact List.chain'_cons.2 ⟨hy, ih⟩
        · simp only [insertLe, h2, if_false] at ih ⊢
          exact List.chain'_cons.2 ⟨hyw, ih⟩

theorem sortStable_chain {α : Type} (le : α → α → Bool) :
    ∀ l : List α, (∀ a ∈ l, ∀ b ∈ l, le a b = true ∨ le b a = true) →
      List.Chain' (fun a b => le a b = true) (sortStable le l)
  | [] => by
    intro _
    simp [sortStable]
  | x :: xs => by
    intro h
    unfold sortStable
    apply insertLe_chain
    · exact sortStable_chain le xs (fun a ha b hb => h a (by simp [ha]) b (by simp [hb]))
    · intro y hy
      have hy' : y ∈ xs := (sortStable_perm le xs).subset hy
      exact h x (by simp) y (by simp [hy'])

theorem sortStable_of_chain {α : Type} (le : α → α → Bool) :
    ∀ l : List α, List.Chain' (fun a b => le a b = true) l → sortStable le l = l
  | [] => fun _ => rfl
  | x :: xs => by
    intro h
    unfold sortStable
    rw [sortStable_of_chain le xs h.tail]
    cases xs with
    | nil => rfl
    | cons y ys =>
      have hxy : le x y = true := (List.chain'_cons.1 h).1
      simp [insertLe, hxy]

/-- Comparator sorting descending by an integer key (ties keep original
order when used with the stable insertion). -/
def keyLe {α : Type} (κ : α → Int) (x y : α) : Bool := decide (κ y ≤ κ x)

theorem insertLe_keyLe_pairwise {α : Type} (κ : α → Int) (x : α) :
    ∀ l : List α, List.Pairwise (fun a b => κ b ≤ κ a) l →
      List.Pairwise (fun a b => κ b ≤ κ a) (insertLe (keyLe κ) x l)
  | [] => by
    intro _
    simp [insertLe]
  | y :: ys => by
    intro hp
    unfold insertLe
    by_cases h : keyLe κ x y
    · simp only [h, if_true]
      refine List.pairwise_cons.2 ⟨?_, hp⟩
      intro z hz
      have hxy : κ y ≤ κ x := by simpa [keyLe] using h
      rcases List.mem_cons.1 hz with rfl | hz'
      · exact hxy
      · have := (List.pairwise_cons.1 hp).1 z hz'
        omega
    · simp only [h, if_false]
      have hlt : κ x < κ y := by simpa [keyLe] using h
      refine List.pairwise_cons.2 ⟨?_, insertLe_keyLe_pairwise κ x ys
        (List.pairwise_cons.1 hp).2⟩
      intro z hz
      have hz' : z = x ∨ z ∈ ys := by
        simpa using (insertLe_perm (keyLe κ) x ys).subset hz
      rcases hz' with rfl | hz'
      · omega
      · exact (List.pairwise_cons.1 hp).1 z hz'

theorem sortStable_keyLe_pairwise {α : Type} (κ : α → Int) :
    ∀ l : List α, List.Pairwise (fun a b => κ b ≤ κ a) (sortStable (keyLe κ) l)
  | [] => by simp [sortStable]
  | x :: xs => insertLe_keyLe_pairwise κ x _ (sortStable_keyLe_pairwise κ xs)

theorem insertLe_keyLe_filter {α : Type} (κ : α → Int) (q : Int) (x : α) :
    ∀ l : List α,
      (insertLe (keyLe κ) x l).filter (fun e => decide (κ e = q)) =
        if κ x = q then x :: l.filter (fun e => decide (κ e = q))
        else l.filter (fun e => decide (κ e = q))
  | [] => by
    by_cases hq : κ x = q <;> simp [insertLe, hq]
  | y :: ys => by
    unfold insertLe
    by_cases h : keyLe κ x y
    · simp only [h, if_true, List.filter_cons]
      by_cases hq : κ x = q <;> simp [hq]
    · have hlt : κ x < κ y := by simpa [keyLe] using h
      simp only [h, Bool.false_eq_true, if_false, List.filter_cons]
      rw [insertLe_keyLe_filter κ q x ys]
      by_cases hyq : κ y = q
      · have hxq : ¬ κ x = q := by omega
        simp [hyq, hxq]
      · by_cases hxq : κ x = q <;> simp [hyq, hxq]

theorem sortStable_keyLe_filter {α : Type} (κ : α → Int) (q : Int) :
    ∀ l : List α,
      (sortStable (keyLe κ) l).filter (fun e => decide (κ e = q)) =
        l.filter (fun e => decide (κ e = q))
  | [] => rfl
  | x :: xs => by
    unfold sortStable
    rw [insertLe_keyLe_filter κ q x (sortStable (keyLe κ) xs),
        sortStable_keyLe_filter κ q xs]
    by_cases hq : κ x = q <;> simp [List.filter_cons, hq]

/-! ## C6 -/

/-- A colour entry in the claim's numeric reading: the definition is a
mapping and a present usage value is numeric (int, or bool, which Python
treats as 0/1). -/
def numericColorEntry (e : String × JVal) : Prop :=
  ∃ fkvs, e.2 = .obj fkvs ∧
    ∀ u, lookupField fkvs "usage" = some u → ∃ i, pyToInt u = some i

theorem usage_key_numeric (e : String × JVal) (h : numericColorEntry e) :
    ∃ w, usage_key e.2 = some w ∧ pyToInt w = some (claimedUsage e.2) := by
  obtain ⟨fkvs, hv, hu⟩ := h
  rw [hv]
  unfold usage_key claimedUsage
  cases hl : lookupField fkvs "usage" with
  | none => exact ⟨.num 0, by simp [hl], by simp [hl, pyToInt]⟩
  | some u =>
    obtain ⟨i, hi⟩ := hu u hl
    exact ⟨u, by simp [hl], by simp [hl, hi]⟩

theorem pyLt_numeric {a b : JVal} {x y : Int}
    (ha : pyToInt a = some x) (hb : pyToInt b = some y) :
    pyLt a b = some (decide (x < y)) := by
  cases a <;> cases b <;> simp_all [pyToInt, pyLt]

theorem usageKeys_numeric :
    ∀ items : List (String × JVal), (∀ e ∈ items, numericColorEntry e) →
      ∃ ks, extractKeys items = some ks ∧
        ∀ k ∈ ks, ∃ i, pyToInt k = some i := by
  intro items h
  induction items with
  | nil => exact ⟨[], rfl, by simp⟩
  | cons e rest ih =>
    obtain ⟨w, hw, hwi⟩ := usage_key_numeric e (h e (by simp))
    obtain ⟨ks, hks, hki⟩ := ih (fun e' he' => h e' (by simp [he']))
    refine ⟨w :: ks, ?_, ?_⟩
    · simp [extractKeys, hw, hks]
    · intro k hk
      rcases List.mem_cons.1 hk with rfl | hk'
      · exact ⟨_, hwi⟩
      · exact hki k hk'

theorem allComparable_numeric {ks : List JVal}
    (h : ∀ k ∈ ks, ∃ i, pyToInt k = some i) : allComparable ks = true := by
  unfold allComparable
  rw [List.all_eq_true]
  intro a ha
  rw [List.all_eq_true]
  intro b hb
  obtain ⟨x, hx⟩ := h a ha
  obtain ⟨y, hy⟩ := h b hb
  simp [pyLt_numeric hx hy]

theorem colorLe_eq_keyLe {x y : String × JVal}
    (hx : numericColorEntry x) (hy : numericColorEntry y) :
    colorLe x y = keyLe (fun e => claimedUsage e.2) x y := by
  obtain ⟨wx, hwx, hwx2⟩ := usage_key_numeric x hx
  obtain ⟨wy, hwy, hwy2⟩ := usage_key_numeric y hy
  unfold colorLe keyLe
  simp only [hwx, hwy]
  rw [pyLt_numeric hwx2 hwy2]
  simp [← decide_not, decide_eq_decide, Int.not_lt]

theorem sort_colors_numeric (items : List (String × JVal))
    (h : ∀ e ∈ items, numericColorEntry e) :
    sort_colors items = sortStable (keyLe (fun e => claimedUsage e.2)) items := by
  obtain ⟨ks, hks, hki⟩ := usageKeys_numeric items h
  simp only [sort_colors, hks, allComparable_numeric hki, if_true]
  exact sortStable_congr _ _ items (fun a ha b hb => colorLe_eq_keyLe (h a ha) (h b hb))

theorem sort_colors_fallback_extract {items : List (String × JVal)}
    (h : extractKeys items = none) : sort_colors items = items := by
  simp [sort_colors, h]

theorem sort_colors_fallback_compare {items : List (String × JVal)} {ks : List JVal}
    (h1 : extractKeys items = some ks)
    (h2 : allComparable ks = false) : sort_colors items = items := by
  simp [sort_colors, h1, h2]

theorem sort_colors_perm (items : List (String × JVal)) :
    List.Perm (sort_colors items) items := by
  unfold sort_colors
  split
  · exact List.Perm.refl _
  · split
    · exact sortStable_perm _ _
    · exact List.Perm.refl _

theorem truncateField_lookup_ne {kvs kvs' : List (String × JVal)} {f : String} {m : Nat}
    (h : truncateField kvs f m = some kvs') {k : String} (hk : k ≠ f) :
    lookupField kvs' k = lookupField kvs k := by
  unfold truncateField at h
  split at h
  · cases h; rfl
  · cases h; exact lookupField_setField_ne _ _ _ _ (Ne.symm hk)
  · cases h

/-- C6 is false as stated: an entry with a non-numeric usage is not
treated as having usage 0.  With colours {"a": {"usage": "x"},
"b": {"usage": 5}} the claimed order puts b first (5 > 0), but in the
code the extracted keys "x" and 5 are incomparable and the sort raises
TypeError inside the bare except.  With exactly two entries that raise
happens on the sort's very first comparison, before any element moves,
so the caught failure leaves exactly the insertion order, a before b —
on this input the model's fallback agrees with the program pointwise. -/
theorem c6_counterexample :
    compress_design_tokens (.obj [("colors", .obj
        [("a", .obj [("usage", .str "x")]), ("b", .obj [("usage", .num 5)])])]) false =
      some (.obj [("colors", .obj
        [("a", .obj [("usage", .str "x")]), ("b", .obj [("usage", .num 5)])])]) ∧
    claimedColorSort
        [("a", .obj [("usage", .str "x")]), ("b", .obj [("usage", .num 5)])] =
      [("b", .obj [("usage", .num 5)]), ("a", .obj [("usage", .str "x")])] ∧
    [("a", JVal.obj [("usage", .str "x")]), ("b", JVal.obj [("usage", .num 5)])] ≠
      [("b", JVal.obj [("usage", .num 5)]), ("a", JVal.obj [("usage", .str "x")])] := by
  decide

/-- C6 (amended): when the colour collection is present as a mapping,
the colours branch of token reduction never raises, and on completion
the output's colour collection is dict() of the first max_colors entries
of some permutation of the original entries — the arrangement the caught
in-place sort leaves.  When key extraction fails (some definition is not
a mapping) that permutation is exactly the original insertion order,
because CPython extracts all sort keys before moving anything.  When
every definition is a mapping whose usage, if present, is numeric
(missing usage defaulting to 0), the sort succeeds and the permutation
is the stable descending-by-usage order: pairwise descending, entries of
equal usage keeping their original relative order.  An entry with a
non-numeric usage among numeric ones is not treated as having usage 0:
it makes the sort raise mid-way, the bare except swallows the error, and
of the partially reordered arrangement left behind only the permutation
property is asserted. -/
theorem c6_color_sort_amended :
    ∀ (tkvs items : List (String × JVal)) (ag : Bool),
      lookupField tkvs "colors" = some (.obj items) →
      (truncateColors tkvs (if ag then 15 else 30)).isSome = true ∧
      ∀ t', compress_design_tokens (.obj tkvs) ag = some t' →
        ∃ tkvs' p, t' = .obj tkvs' ∧
          List.Perm p items ∧
          lookupField tkvs' "colors" =
            some (.obj (pyDict (p.take (if ag then 15 else 30)))) ∧
          (extractKeys items = none → p = items) ∧
          ((∀ e ∈ items, numericColorEntry e) →
            p = sortStable (keyLe (fun e => claimedUsage e.2)) items ∧
            List.Pairwise (fun a b => claimedUsage b.2 ≤ claimedUsage a.2) p ∧
            (∀ q : Int,
              p.filter (fun e => decide (claimedUsage e.2 = q)) =
                items.filter (fun e => decide (claimedUsage e.2 = q)))) := by
  intro tkvs items ag hl
  constructor
  · simp [truncateColors, hl]
  · intro t' h
    have hfals : isFalsy (.obj tkvs) = false := by
      cases tkvs with
      | nil => simp [lookupField] at hl
      | cons e rest => simp [isFalsy]
    simp only [compress_design_tokens, hfals, Bool.false_eq_true, if_false] at h
    have htc : truncateColors tkvs (if ag then 15 else 30) =
        some (setField tkvs "colors"
          (.obj (pyDict ((sort_colors items).take (if ag then 15 else 30))))) := by
      simp [truncateColors, hl]
    simp only [htc] at h
    cases ht : truncateField
        (setField tkvs "colors"
          (.obj (pyDict ((sort_colors items).take (if ag then 15 else 30)))))
        "typography" (if ag then 10 else 20) with
    | none => simp [ht] at h
    | some kvs2 =>
      simp only [ht] at h
      cases hs : truncateField kvs2 "spacing" (if ag then 10 else 25) with
      | none => simp [hs] at h
      | some kvs3 =>
        simp only [hs] at h
        have ht' : t' = .obj kvs3 := (Option.some.inj h).symm
        subst ht'
        refine ⟨kvs3, sort_colors items, rfl, sort_colors_perm items, ?_, ?_, ?_⟩
        · rw [truncateField_lookup_ne hs (by decide),
              truncateField_lookup_ne ht (by decide)]
          exact lookupField_setField_self _ _ _
        · exact sort_colors_fallback_extract
        · intro hnum
          refine ⟨sort_colors_numeric items hnum, ?_, ?_⟩
          · rw [sort_colors_numeric items hnum]
            exact sortStable_keyLe_pairwise _ items
          · intro q
            rw [sort_colors_numeric items hnum]
            exact sortStable_keyLe_filter _ q items

theorem c6_color_sort_amended_witness :
    (truncateColors [("colors", JVal.obj
        [("a", JVal.obj [("usage", JVal.num 1)]),
         ("b", JVal.obj [("usage", JVal.num 5)])])]
      (if true then 15 else 30)).isSome = true ∧
    ∃ tkvs' p,
      (JVal.obj [("colors", JVal.obj
        [("b", JVal.obj [("usage", JVal.num 5)]),
         ("a", JVal.obj [("usage", JVal.num 1)])])]) = JVal.obj tkvs' ∧
      List.Perm p [("a", JVal.obj [("usage", JVal.num 1)]),
        ("b", JVal.obj [("usage", JVal.num 5)])] ∧
      lookupField tkvs' "colors" =
        some (JVal.obj (pyDict (p.take (if true then 15 else 30)))) ∧
      (extractKeys [("a", JVal.obj [("usage", JVal.num 1)]),
          ("b", JVal.obj [("usage", JVal.num 5)])] = none →
        p = [("a", JVal.obj [("usage", JVal.num 1)]),
             ("b", JVal.obj [("usage", JVal.num 5)])]) ∧
      ((∀ e ∈ [("a", JVal.obj [("usage", JVal.num 1)]),
               ("b", JVal.obj [("usage", JVal.num 5)])], numericColorEntry e) →
        p = sortStable (keyLe (fun e => claimedUsage e.2))
            [("a", JVal.obj [("usage", JVal.num 1)]),
             ("b", JVal.obj [("usage", JVal.num 5)])] ∧
        List.Pairwise (fun a b => claimedUsage b.2 ≤ claimedUsage a.2) p ∧
        (∀ q : Int,
          p.filter (fun e => decide (claimedUsage e.2 = q)) =
            [("a", JVal.obj [("usage", JVal.num 1)]),
             ("b", JVal.obj [("usage", JVal.num 5)])].filter
              (fun e => decide (claimedUsage e.2 = q)))) :=
  ⟨(c6_color_sort_amended [("colors", JVal.obj
      [("a", JVal.obj [("usage", JVal.num 1)]),
       ("b", JVal.obj [("usage", JVal.num 5)])])]
      [("a", JVal.obj [("usage", JVal.num 1)]),
       ("b", JVal.obj [("usage", JVal.num 5)])] true (by decide)).1,
   (c6_color_sort_amended [("colors", JVal.obj
      [("a", JVal.obj [("usage", JVal.num 1)]),
       ("b", JVal.obj [("usage", JVal.num 5)])])]
      [("a", JVal.obj [("usage", JVal.num 1)]),
       ("b", JVal.obj [("usage", JVal.num 5)])] true (by decide)).2
     (JVal.obj [("colors", JVal.obj
       [("b", JVal.obj [("usage", JVal.num 5)]),
        ("a", JVal.obj [("usage", JVal.num 1)])])]) (by decide)⟩

/-! ## C9 -/

theorem lookupField_filter_eq {p : String × JVal → Bool} {k : String}
    (kvs : List (String × JVal)) (h : ∀ v, p (k, v) = true) :
    lookupField (kvs.filter p) k = lookupField kvs k := by
  induction kvs with
  | nil => rfl
  | cons e rest ih =>
    obtain ⟨k2, w⟩ := e
    by_cases hk : k2 = k
    · subst hk
      simp [List.filter_cons, h w, lookupField]
    · cases hp : p (k2, w) with
      | true => simp [List.filter_cons, hp, lookupField, hk, ih]
      | false => simp [List.filter_cons, hp, lookupField, hk, ih]

theorem lookupField_filter_none {p : String × JVal → Bool} {k : String}
    (kvs : List (String × JVal)) (h : ∀ v, p (k, v) = false) :
    lookupField (kvs.filter p) k = none := by
  induction kvs with
  | nil => rfl
  | cons e rest ih =>
    obtain ⟨k2, w⟩ := e
    by_cases hk : k2 = k
    · subst hk
      simp [List.filter_cons, h w, ih]
    · cases hp : p (k2, w) with
      | true => simp [List.filter_cons, hp, lookupField, hk, ih]
      | false => simp [List.filter_cons, hp, ih]

theorem stripFields_lookup_meta {kvs : List (String × JVal)} {k : String}
    (h : metadataKeys.contains k = true) :
    lookupField (stripFields kvs) k = none :=
  lookupField_filter_none kvs (fun _ => by
    have hm : k ∈ metadataKeys := List.mem_of_elem_eq_true h
    simp [hm])

theorem stripFields_lookup_other {kvs : List (String × JVal)} {k : String}
    (h : metadataKeys.contains k = false) :
    lookupField (stripFields kvs) k = lookupField kvs k :=
  lookupField_filter_eq kvs (fun _ => by
    have hm : k ∉ metadataKeys := by simpa using h
    simp [hm])

/-- The fixed metadata set contains none of the structural keys. -/
theorem noForbidden_of_none {kvs : List (String × JVal)}
    (h : ∀ k, metadataKeys.contains k = true → lookupField kvs k = none) :
    metadataKeys.all (fun k => !(hasField kvs k)) = true := by
  rw [List.all_eq_true]
  intro k hk
  have : lookupField kvs k = none := h k (List.elem_eq_true_of_mem hk)
  simp [hasField, this]

theorem mem_zip_right {α β : Type} :
    ∀ (xs : List α) (ys : List β), ys.length = xs.length → ∀ y ∈ ys,
      ∃ x, (x, y) ∈ xs.zip ys
  | [], [], _, y, hy => by cases hy
  | [], _ :: _, h, _, _ => by cases h
  | _ :: _, [], _, y, hy => by cases hy
  | x :: xs, y0 :: ys, h, y, hy => by
    rcases List.mem_cons.1 hy with rfl | hy'
    · exact ⟨x, by simp⟩
    · obtain ⟨x', hx'⟩ := mem_zip_right xs ys (by simpa using h) y hy'
      exact ⟨x', by simp [hx']⟩

theorem metadataKeys_ne_children : ∀ k ∈ metadataKeys, "children" ≠ k := by decide

theorem clearChildren_obj (kvs : List (String × JVal)) :
    clearChildren (.obj kvs) =
      some (.obj (if hasField kvs "children" then setField kvs "children" (.arr [])
                  else kvs)) := by
  unfold clearChildren pyContainsKey
  by_cases h : hasField kvs "children" <;> simp [h]

theorem cleanChk_nonObj : ∀ (f : Nat) (v : JVal), (∀ kvs, v ≠ .obj kvs) →
    cleanChk f v = true := by
  intro f v h
  cases f <;> cases v <;> first | rfl | exact absurd rfl (h _)

theorem childrenPreservedChk_nonObj : ∀ (f : Nat) (a b : JVal),
    (∀ kvs, a ≠ .obj kvs) → childrenPreservedChk f a b = true := by
  intro f a b h
  cases f <;> cases a <;> first | rfl | exact absurd rfl (h _)

theorem simplifyKids_spec {step : JVal → Option JVal} {P : JVal → JVal → Prop}
    (hstep : ∀ c c', (∃ kvs, c = .obj kvs) → step c = some c' → P c c') :
    ∀ (xs xs' : List JVal), simplifyKids step xs = some xs' →
      xs'.length = xs.length ∧
      ∀ p ∈ xs.zip xs',
        ((∃ kvs, p.1 = .obj kvs) → step p.1 = some p.2 ∧ P p.1 p.2) ∧
        ((∀ kvs, p.1 ≠ .obj kvs) → p.2 = p.1) := by
  intro xs
  induction xs with
  | nil =>
    intro xs' h
    simp only [simplifyKids] at h
    cases h
    exact ⟨rfl, by simp⟩
  | cons c rest ih =>
    intro xs' h
    simp only [simplifyKids] at h
    cases c
    case obj ckvs =>
      cases hs : step (.obj ckvs) with
      | none => simp [hs] at h
      | some c' =>
        simp only [hs] at h
        cases hr : simplifyKids step rest with
        | none => simp [hr] at h
        | some rest' =>
          simp only [hr] at h
          cases h
          obtain ⟨hlen, hall⟩ := ih rest' hr
          refine ⟨by simp [hlen], ?_⟩
          intro p hp
          rw [List.zip_cons_cons] at hp
          rcases List.mem_cons.1 hp with rfl | hp2
          · exact ⟨fun hobj => ⟨hs, hstep _ _ ⟨ckvs, rfl⟩ hs⟩,
                   fun hno => absurd rfl (hno ckvs)⟩
          · exact hall p hp2
    all_goals {
      cases hr : simplifyKids step rest with
      | none => simp [hr] at h
      | some rest' =>
        simp only [hr] at h
        cases h
        obtain ⟨hlen, hall⟩ := ih rest' hr
        refine ⟨by simp [hlen], ?_⟩
        intro p hp
        rw [List.zip_cons_cons] at hp
        rcases List.mem_cons.1 hp with rfl | hp2
        · refine ⟨fun hobj => ?_, fun _ => rfl⟩
          obtain ⟨kvs0, hk0⟩ := hobj
          cases hk0
        · exact hall p hp2 }

theorem cleanChk_zero_obj {kvs' : List (String × JVal)}
    (hmeta : ∀ k, metadataKeys.contains k = true → lookupField kvs' k = none)
    (hch : lookupField kvs' "children" = none ∨
           lookupField kvs' "children" = some (.arr [])) :
    cleanChk 0 (.obj kvs') = true := by
  simp only [cleanChk]
  rw [Bool.and_eq_true]
  refine ⟨noForbidden_of_none hmeta, ?_⟩
  rcases hch with h | h <;> simp only [h]

theorem cleanChk_succ_obj {f : Nat} {kvs' : List (String × JVal)}
    (hmeta : ∀ k, metadataKeys.contains k = true → lookupField kvs' k = none)
    (hch : ∀ xs, lookupField kvs' "children" = some (.arr xs) →
      ∀ c ∈ xs, cleanChk f c = true) :
    cleanChk (f + 1) (.obj kvs') = true := by
  simp only [cleanChk]
  rw [Bool.and_eq_true]
  refine ⟨noForbidden_of_none hmeta, ?_⟩
  cases hl : lookupField kvs' "children" with
  | none => simp only [hl]
  | some v =>
    cases v with
    | arr xs =>
      simp only [hl, List.all_eq_true]
      exact hch xs hl
    | null => simp only [hl]
    | bool b => simp only [hl]
    | num n => simp only [hl]
    | str s => simp only [hl]
    | obj o => simp only [hl]

theorem simplifyFuel_zero (node : JVal) :
    simplifyFuel 0 node =
      (match stripMeta node with
       | none => none
       | some node1 => clearChildren node1) := by
  rw [simplifyFuel.eq_1]

theorem simplifyFuel_succ (f : Nat) (node : JVal) :
    simplifyFuel (f + 1) node =
      (match stripMeta node with
       | none => none
       | some node1 =>
         match pyContainsKey "children" node1 with
         | none => none
         | some false => some node1
         | some true =>
           match node1 with
           | .obj kvs =>
             (match lookupField kvs "children" with
              | some (.arr xs) =>
                (match simplifyKids (fun c => simplifyFuel f c) xs with
                 | none => none
                 | some xs' => some (.obj (setField kvs "children" (.arr xs'))))
              | some _ => some node1
              | none => none)
           | _ => none) := by
  rw [simplifyFuel.eq_1]

theorem simplifyFuel_clean : ∀ (fuel : Nat) (node node' : JVal),
    simplifyFuel fuel node = some node' →
    cleanChk fuel node' = true ∧ childrenPreservedChk fuel node node' = true := by
  intro fuel
  induction fuel with
  | zero =>
    intro node node' h
    rw [simplifyFuel_zero] at h
    cases node with
    | obj kvs =>
      simp only [stripMeta, clearChildren_obj] at h
      cases h
      refine ⟨?_, rfl⟩
      by_cases hch : hasField (stripFields kvs) "children"
      · rw [if_pos hch]
        refine cleanChk_zero_obj ?_ (Or.inr (lookupField_setField_self _ _ _))
        intro k hk
        rw [lookupField_setField_ne _ _ _ _
          (metadataKeys_ne_children k (List.mem_of_elem_eq_true hk))]
        exact stripFields_lookup_meta hk
      · rw [if_neg hch]
        refine cleanChk_zero_obj (fun k hk => stripFields_lookup_meta hk) (Or.inl ?_)
        cases hl : lookupField (stripFields kvs) "children" with
        | none => rfl
        | some v => exact absurd (by simp [hasField, hl]) hch
    | str s =>
      simp only [stripMeta] at h
      cases hany : metadataKeys.any (fun k => strHasSub k s) with
      | true => simp [hany] at h
      | false =>
        simp only [hany, Bool.false_eq_true, if_false, clearChildren, pyContainsKey] at h
        cases hc : strHasSub "children" s with
        | true => simp [hc] at h
        | false =>
          simp only [hc] at h
          cases h
          exact ⟨rfl, rfl⟩
    | arr xs =>
      simp only [stripMeta] at h
      cases hany : metadataKeys.any (fun k => xs.contains (.str k)) with
      | true => rw [hany] at h; simp at h
      | false =>
        simp only [hany, Bool.false_eq_true, if_false, clearChildren, pyContainsKey] at h
        cases hc : xs.contains (.str "children") with
        | true => rw [hc] at h; simp at h
        | false =>
          simp only [hc] at h
          cases h
          exact ⟨rfl, rfl⟩
    | null => simp [stripMeta] at h
    | bool b => simp [stripMeta] at h
    | num n => simp [stripMeta] at h
  | succ f ih =>
    intro node node' h
    rw [simplifyFuel_succ] at h
    cases node with
    | obj kvs =>
      simp only [stripMeta, pyContainsKey] at h
      cases hch : hasField (stripFields kvs) "children" with
      | false =>
        simp only [hch] at h
        cases h
        have hnone : lookupField (stripFields kvs) "children" = none := by
          cases hl : lookupField (stripFields kvs) "children" with
          | none => rfl
          | some v => rw [hasField, hl] at hch; simp at hch
        have horig : lookupField kvs "children" = none := by
          rw [← @stripFields_lookup_other kvs "children" (by decide)]
          exact hnone
        constructor
        · exact cleanChk_succ_obj (fun k hk => stripFields_lookup_meta hk)
            (fun xs hxs => absurd hxs (by simp [hnone]))
        · simp only [childrenPreservedChk, horig]
      | true =>
        simp only [hch] at h
        cases hlk : lookupField (stripFields kvs) "children" with
        | none => rw [hasField, hlk] at hch; simp at hch
        | some v =>
          simp only [hlk] at h
          have horig : lookupField kvs "children" = some v := by
            rw [← @stripFields_lookup_other kvs "children" (by decide)]
            exact hlk
          cases v with
          | arr xs =>
            cases hk : simplifyKids (fun c => simplifyFuel f c) xs with
            | none => simp [hk] at h
            | some xs' =>
              simp only [hk] at h
              cases h
              obtain ⟨hlen, hall⟩ := simplifyKids_spec
                (P := fun c c' => cleanChk f c' = true ∧
                  childrenPreservedChk f c c' = true)
                (fun c c' _ hs => ih c c' hs) xs xs' hk
              constructor
              · refine cleanChk_succ_obj ?_ ?_
                · intro k hk2
                  rw [lookupField_setField_ne _ _ _ _
                    (metadataKeys_ne_children k (List.mem_of_elem_eq_true hk2))]
                  exact stripFields_lookup_meta hk2
                · intro ys hys c' hc'
                  rw [lookupField_setField_self] at hys
                  cases hys
                  obtain ⟨c, hpair⟩ := mem_zip_right xs xs' hlen c' hc'
                  obtain ⟨hobj, hnon⟩ := hall (c, c') hpair
                  by_cases hc : ∃ kvs0, c = .obj kvs0
                  · exact (hobj hc).2.1
                  · have h2 : c' = c := hnon (fun kvs0 hk0 => hc ⟨kvs0, hk0⟩)
                    rw [h2]
                    exact cleanChk_nonObj f c (fun kvs0 hk0 => hc ⟨kvs0, hk0⟩)
              · simp only [childrenPreservedChk, horig, lookupField_setField_self,
                  Bool.and_eq_true, List.all_eq_true]
                refine ⟨by simp [hlen], ?_⟩
                intro p hp
                obtain ⟨hobj, hnon⟩ := hall p hp
                rcases p with ⟨c, c'⟩
                dsimp only at hobj hnon ⊢
                cases c with
                | obj ckvs =>
                  obtain ⟨hstep, hP⟩ := hobj ⟨ckvs, rfl⟩
                  simp only [hstep]
                  rw [Bool.and_eq_true]
                  exact ⟨(jvalBeq_iff _ _).2 rfl, hP.2⟩
                | null =>
                  have h2 : c' = JVal.null := hnon (by intro k0 hk0; cases hk0)
                  rw [h2]
                  exact (jvalBeq_iff _ _).2 rfl
                | bool b =>
                  have h2 : c' = JVal.bool b := hnon (by intro k0 hk0; cases hk0)
                  rw [h2]
                  exact (jvalBeq_iff _ _).2 rfl
                | num n =>
                  have h2 : c' = JVal.num n := hnon (by intro k0 hk0; cases hk0)
                  rw [h2]
                  exact (jvalBeq_iff _ _).2 rfl
                | str s2 =>
                  have h2 : c' = JVal.str s2 := hnon (by intro k0 hk0; cases hk0)
                  rw [h2]
                  exact (jvalBeq_iff _ _).2 rfl
                | arr ys =>
                  have h2 : c' = JVal.arr ys := hnon (by intro k0 hk0; cases hk0)
                  rw [h2]
                  exact (jvalBeq_iff _ _).2 rfl
          | null =>
            simp only [] at h
            cases h
            constructor
            · exact cleanChk_succ_obj (fun k hk2 => stripFields_lookup_meta hk2)
                (fun xs hxs => by rw [hlk] at hxs; cases hxs)
            · simp only [childrenPreservedChk, horig]
          | bool b =>
            simp only [] at h
            cases h
            constructor
            · exact cleanChk_succ_obj (fun k hk2 => stripFields_lookup_meta hk2)
                (fun xs hxs => by rw [hlk] at hxs; cases hxs)
            · simp only [childrenPreservedChk, horig]
          | num n =>
            simp only [] at h
            cases h
            constructor
            · exact cleanChk_succ_obj (fun k hk2 => stripFields_lookup_meta hk2)
                (fun xs hxs => by rw [hlk] at hxs; cases hxs)
            · simp only [childrenPreservedChk, horig]
          | str s =>
            simp only [] at h
            cases h
            constructor
            · exact cleanChk_succ_obj (fun k hk2 => stripFields_lookup_meta hk2)
                (fun xs hxs => by rw [hlk] at hxs; cases hxs)
            · simp only [childrenPreservedChk, horig]
          | obj o =>
            simp only [] at h
            cases h
            constructor
            · exact cleanChk_succ_obj (fun k hk2 => stripFields_lookup_meta hk2)
                (fun xs hxs => by rw [hlk] at hxs; cases hxs)
            · simp only [childrenPreservedChk, horig]
    | str s =>
      simp only [stripMeta] at h
      cases hany : metadataKeys.any (fun k => strHasSub k s) with
      | true => simp [hany] at h
      | false =>
        simp only [hany, Bool.false_eq_true, if_false, pyContainsKey] at h
        cases hc : strHasSub "children" s with
        | true => simp [hc] at h
        | false =>
          simp only [hc] at h
          cases h
          exact ⟨rfl, rfl⟩
    | arr xs =>
      simp only [stripMeta] at h
      cases hany : metadataKeys.any (fun k => xs.contains (.str k)) with
      | true => rw [hany] at h; simp at h
      | false =>
        simp only [hany, Bool.false_eq_true, if_false, pyContainsKey] at h
        cases hc : xs.contains (.str "children") with
        | true => rw [hc] at h; simp at h
        | false =>
          simp only [hc] at h
          cases h
          exact ⟨rfl, rfl⟩
    | null => simp [stripMeta] at h
    | bool b => simp [stripMeta] at h
    | num n => simp [stripMeta] at h

/-- C9 (confirmed): after simplify_tree from depth 0 with any max_depth,
(a) every visited mapping node — including one at the truncation depth,
whose metadata is stripped before its children are cleared — carries none
of the six forbidden metadata keys, (b) a node at depth max_depth has an
empty (or absent) children list, so no node at depth >= max_depth retains
a non-empty one, and (c) every ancestor above the cutoff keeps its
children sequence's length and order, position i of the output being
exactly the simplification of position i of the input (untouched when not
a mapping). -/
theorem c9_tree_invariants :
    ∀ (maxD : Nat) (node node' : JVal),
      simplify_tree node maxD 0 = some node' →
      cleanChk maxD node' = true ∧ childrenPreservedChk maxD node node' = true := by
  intro maxD node node' h
  exact simplifyFuel_clean maxD node node' (by simpa [simplify_tree] using h)

theorem c9_tree_invariants_witness :
    cleanChk 2 (.obj [("children", .arr
      [.obj [("children", .arr [.obj [("children", .arr [])]])], .num 7])]) = true ∧
    childrenPreservedChk 2
      (.obj [("debugInfo", .num 1), ("children", .arr
        [.obj [("htmlMetadata", .null), ("children", .arr
          [.obj [("children", .arr [.num 3])]])], .num 7])])
      (.obj [("children", .arr
        [.obj [("children", .arr [.obj [("children", .arr [])]])], .num 7])]) = true :=
  c9_tree_invariants 2
    (.obj [("debugInfo", .num 1), ("children", .arr
      [.obj [("htmlMetadata", .null), ("children", .arr
        [.obj [("children", .arr [.num 3])]])], .num 7])])
    (.obj [("children", .arr
      [.obj [("children", .arr [.obj [("children", .arr [])]])], .num 7])])
    (by decide)

/-! ## C5 -/

theorem charListLt_asymm : ∀ (as bs : List Char),
    charListLt as bs = true → charListLt bs as = true → False
  | [], [], h1, _ => by simp [charListLt] at h1
  | [], _ :: _, _, h2 => by simp [charListLt] at h2
  | _ :: _, [], h1, _ => by simp [charListLt] at h1
  | a :: as, b :: bs, h1, h2 => by
    simp only [charListLt, Bool.or_eq_true, Bool.and_eq_true, decide_eq_true_eq,
      Nat.beq_eq_true_eq] at h1 h2
    rcases h1 with h1 | ⟨he1, h1⟩
    · rcases h2 with h2 | ⟨he2, h2⟩
      · omega
      · omega
    · rcases h2 with h2 | ⟨he2, h2⟩
      · omega
      · exact charListLt_asymm as bs h1 h2

mutual

/-- Where Python == is one-directional in the model (possible only for
association lists with duplicate keys, which real dicts never produce),
the values involved are dicts and < raises on them. -/
theorem pyEq_oneway_lt_none : ∀ (a b : JVal),
    pyEq a b = true → pyEq b a = false → pyLt b a = none
  | .null, b, h1, h2 => by
    cases b <;> simp_all [pyEq]
  | .bool x, b, h1, h2 => by
    cases b <;> simp_all [pyEq, pyToInt]
  | .num n, b, h1, h2 => by
    cases b <;> simp_all [pyEq, pyToInt]
  | .str s, b, h1, h2 => by
    cases b <;> simp_all [pyEq]
  | .arr xs, b, h1, h2 => by
    cases b with
    | arr ys =>
      simp only [pyEq] at h1 h2
      exact pyEqList_oneway_lt_none xs ys h1 h2
    | null => simp_all [pyEq]
    | bool y => simp_all [pyEq]
    | num m => simp_all [pyEq]
    | str t => simp_all [pyEq]
    | obj o => simp_all [pyEq]
  | .obj a, b, h1, h2 => by
    cases b with
    | obj o => simp [pyLt, pyToInt]
    | null => simp_all [pyEq]
    | bool y => simp_all [pyEq]
    | num m => simp_all [pyEq]
    | str t => simp_all [pyEq]
    | arr ys => simp_all [pyEq]

theorem pyEqList_oneway_lt_none : ∀ (xs ys : List JVal),
    pyEqList xs ys = true → pyEqList ys xs = false → pyLtList ys xs = none
  | [], [], h1, h2 => by simp [pyEqList] at h2
  | [], _ :: _, h1, _ => by simp [pyEqList] at h1
  | _ :: _, [], h1, _ => by simp [pyEqList] at h1
  | x :: xs, y :: ys, h1, h2 => by
    simp only [pyEqList, Bool.and_eq_true] at h1
    simp only [pyEqList, Bool.and_eq_false_iff] at h2
    simp only [pyLtList]
    cases he : pyEq y x with
    | true =>
      rw [if_pos rfl]
      rcases h2 with h2 | h2
      · rw [he] at h2; cases h2
      · exact pyEqList_oneway_lt_none xs ys h1.2 h2
    | false =>
      rw [if_neg (by simp [he])]
      exact pyEq_oneway_lt_none x y h1.1 he

end

mutual

/-- Python < is asymmetric wherever both directions are defined. -/
theorem pyLt_asymm : ∀ (a b : JVal),
    pyLt a b = some true → pyLt b a = some true → False
  | .null, b, h1, _ => by cases b <;> simp_all [pyLt, pyToInt]
  | .bool x, b, h1, h2 => by
    cases b <;> simp_all [pyLt, pyToInt] <;> omega
  | .num n, b, h1, h2 => by
    cases b <;> simp_all [pyLt, pyToInt] <;> omega
  | .str s, b, h1, h2 => by
    cases b with
    | str t =>
      simp only [pyLt, Option.some.injEq] at h1 h2
      exact charListLt_asymm s.data t.data (by simpa [strLtB] using h1)
        (by simpa [strLtB] using h2)
    | null => simp_all [pyLt, pyToInt]
    | bool y => simp_all [pyLt, pyToInt]
    | num m => simp_all [pyLt, pyToInt]
    | arr ys => simp_all [pyLt, pyToInt]
    | obj o => simp_all [pyLt, pyToInt]
  | .arr xs, b, h1, h2 => by
    cases b with
    | arr ys =>
      simp only [pyLt] at h1 h2
      exact pyLtList_asymm xs ys h1 h2
    | null => simp_all [pyLt, pyToInt]
    | bool y => simp_all [pyLt, pyToInt]
    | num m => simp_all [pyLt, pyToInt]
    | str t => simp_all [pyLt, pyToInt]
    | obj o => simp_all [pyLt, pyToInt]
  | .obj a, b, h1, _ => by cases b <;> simp_all [pyLt, pyToInt]

theorem pyLtList_asymm : ∀ (xs ys : List JVal),
    pyLtList xs ys = some true → pyLtList ys xs = some true → False
  | [], [], h1, _ => by simp [pyLtList] at h1
  | [], _ :: _, _, h2 => by simp [pyLtList] at h2
  | _ :: _, [], h1, _ => by simp [pyLtList] at h1
  | x :: xs, y :: ys, h1, h2 => by
    simp only [pyLtList] at h1 h2
    cases e1 : pyEq x y with
    | true =>
      rw [if_pos (by rw [e1])] at h1
      cases e2 : pyEq y x with
      | true =>
        rw [if_pos (by rw [e2])] at h2
        exact pyLtList_asymm xs ys h1 h2
      | false =>
        rw [if_neg (by simp [e2])] at h2
        rw [pyEq_oneway_lt_none x y e1 e2] at h2
        cases h2
    | false =>
      rw [if_neg (by simp [e1])] at h1
      cases e2 : pyEq y x with
      | true =>
        rw [if_pos (by rw [e2])] at h2
        rw [pyEq_oneway_lt_none y x e2 e1] at h1
        cases h1
      | false =>
        rw [if_neg (by simp [e2])] at h2
        exact pyLt_asymm x y h1 h2

end

theorem extractKeys_forall : ∀ {l : List (String × JVal)} {ks : List JVal},
    extractKeys l = some ks → ∀ e ∈ l, usage_key e.2 ≠ none := by
  intro l
  induction l with
  | nil => intro ks h e he; cases he
  | cons e0 rest ih =>
    intro ks h e he
    simp only [extractKeys] at h
    cases hu : usage_key e0.2 with
    | none => simp [hu] at h
    | some w =>
      simp only [hu] at h
      cases hr : extractKeys rest with
      | none => simp [hr] at h
      | some ks' =>
        rcases List.mem_cons.1 he with rfl | he'
        · simp [hu]
        · exact ih hr e he'

theorem extractKeys_of_forall : ∀ {l : List (String × JVal)},
    (∀ e ∈ l, usage_key e.2 ≠ none) →
    extractKeys l = some (l.map (fun e => (usage_key e.2).getD (.num 0))) := by
  intro l
  induction l with
  | nil => intro _; rfl
  | cons e0 rest ih =>
    intro h
    have h0 := h e0 (by simp)
    cases hu : usage_key e0.2 with
    | none => exact absurd hu h0
    | some w =>
      simp only [extractKeys, hu, ih (fun e he => h e (by simp [he])), List.map_cons]
      simp [hu]

theorem colorLe_total_of_some {a b : String × JVal} {wa wb : JVal}
    (ha : usage_key a.2 = some wa) (hb : usage_key b.2 = some wb)
    (hab : (pyLt wa wb).isSome = true) (hba : (pyLt wb wa).isSome = true) :
    colorLe a b = true ∨ colorLe b a = true := by
  obtain ⟨r, hr⟩ := Option.isSome_iff_exists.1 hab
  obtain ⟨r', hr'⟩ := Option.isSome_iff_exists.1 hba
  unfold colorLe
  simp only [ha, hb, hr, hr', Option.getD_some]
  cases r with
  | false => left; rfl
  | true =>
    cases r' with
    | false => right; rfl
    | true => exact (pyLt_asymm wa wb hr hr').elim

theorem sort_colors_idem (items : List (String × JVal)) :
    sort_colors (sort_colors items) = sort_colors items := by
  cases hex : extractKeys items with
  | none =>
    rw [sort_colors_fallback_extract hex, sort_colors_fallback_extract hex]
  | some ks =>
    cases hcmp : allComparable ks with
    | false =>
      rw [sort_colors_fallback_compare hex hcmp, sort_colors_fallback_compare hex hcmp]
    | true =>
      have hforall := extractKeys_forall hex
      have hks : ks = items.map (fun e => (usage_key e.2).getD (.num 0)) := by
        have h2 := extractKeys_of_forall hforall
        rw [hex] at h2
        exact Option.some.inj h2
      have hsort : sort_colors items = sortStable colorLe items := by
        simp only [sort_colors, hex, hcmp, if_true]
      have hperm : List.Perm (sortStable colorLe items) items :=
        sortStable_perm colorLe items
      have hforall' : ∀ e ∈ sortStable colorLe items, usage_key e.2 ≠ none :=
        fun e he => hforall e (hperm.subset he)
      have hex' := extractKeys_of_forall hforall'
      have hmem : ∀ k ∈ (sortStable colorLe items).map
          (fun e => (usage_key e.2).getD (.num 0)), k ∈ ks := by
        intro k hk
        rw [hks]
        obtain ⟨e, he, rfl⟩ := List.mem_map.1 hk
        exact List.mem_map.2 ⟨e, hperm.subset he, rfl⟩
      have hcmp' : allComparable ((sortStable colorLe items).map
          (fun e => (usage_key e.2).getD (.num 0))) = true := by
        unfold allComparable at hcmp ⊢
        rw [List.all_eq_true] at hcmp ⊢
        intro a ha
        rw [List.all_eq_true]
        intro b hb
        have h1 := hcmp a (hmem a ha)
        rw [List.all_eq_true] at h1
        exact h1 b (hmem b hb)
      have htot : ∀ a ∈ items, ∀ b ∈ items,
          colorLe a b = true ∨ colorLe b a = true := by
        intro a ha b hb
        have hwa0 := hforall a ha
        have hwb0 := hforall b hb
        obtain ⟨wa, hwa⟩ := Option.ne_none_iff_exists'.1 hwa0
        obtain ⟨wb, hwb⟩ := Option.ne_none_iff_exists'.1 hwb0
        have hwa' : wa ∈ ks := by
          rw [hks]
          exact List.mem_map.2 ⟨a, ha, by simp [hwa]⟩
        have hwb' : wb ∈ ks := by
          rw [hks]
          exact List.mem_map.2 ⟨b, hb, by simp [hwb]⟩
        have hAll := List.all_eq_true.1 (by unfold allComparable at hcmp; exact hcmp)
        have hab : (pyLt wa wb).isSome = true :=
          List.all_eq_true.1 (hAll wa hwa') wb hwb'
        have hba : (pyLt wb wa).isSome = true :=
          List.all_eq_true.1 (hAll wb hwb') wa hwa'
        exact colorLe_total_of_some hwa hwb hab hba
      rw [hsort]
      simp only [sort_colors, hex', hcmp', if_true]
      exact sortStable_of_chain colorLe (sortStable colorLe items)
        (sortStable_chain colorLe items htot)

theorem hasField_of_mem {l : List (String × JVal)} {e : String × JVal}
    (h : e ∈ l) : hasField l e.1 = true := by
  induction l with
  | nil => cases h
  | cons e0 rest ih =>
    obtain ⟨k0, w0⟩ := e0
    rcases List.mem_cons.1 h with rfl | h'
    · simp [hasField, lookupField]
    · by_cases hk : k0 = e.1
      · simp [hasField, lookupField, hk]
      · simpa [hasField, lookupField, hk] using ih h'

theorem hasField_append (a b : List (String × JVal)) (k : String) :
    hasField (a ++ b) k = (hasField a k || hasField b k) := by
  induction a with
  | nil => simp [hasField, lookupField]
  | cons e rest ih =>
    obtain ⟨k0, w0⟩ := e
    by_cases hk : k0 = k
    · simp [hasField, lookupField, hk]
    · simpa [hasField, lookupField, hk] using ih

theorem setField_of_absent {l : List (String × JVal)} {k : String} (v : JVal)
    (h : hasField l k = false) : setField l k v = l ++ [(k, v)] := by
  induction l with
  | nil => rfl
  | cons e rest ih =>
    obtain ⟨k0, w0⟩ := e
    by_cases hk : k0 = k
    · simp [hasField, lookupField, hk] at h
    · simp only [hasField, lookupField, hk, if_false] at h
      simp [setField, hk, ih h]

theorem hasField_setField (l : List (String × JVal)) (k k' : String) (v : JVal) :
    hasField (setField l k v) k' = (hasField l k' || (k == k')) := by
  by_cases hk : k = k'
  · subst hk
    simp [hasField, lookupField_setField_self]
  · simp [hasField, lookupField_setField_ne l k k' v hk, hk]

theorem keysNodup_setField {l : List (String × JVal)} (k : String) (v : JVal)
    (h : keysNodup l = true) : keysNodup (setField l k v) = true := by
  induction l with
  | nil => simp [setField, keysNodup, hasField, lookupField]
  | cons e rest ih =>
    obtain ⟨k0, w0⟩ := e
    simp only [keysNodup, Bool.and_eq_true, Bool.not_eq_eq_eq_not, Bool.not_true] at h
    by_cases hk : k0 = k
    · subst hk
      simp [setField, keysNodup, h.1, h.2]
    · simp only [setField, hk, if_false, keysNodup, Bool.and_eq_true,
        Bool.not_eq_eq_eq_not, Bool.not_true]
      refine ⟨?_, ih h.2⟩
      rw [hasField_setField]
      simp [h.1, Ne.symm hk]

theorem foldl_setField_append :
    ∀ (l acc : List (String × JVal)),
      (∀ e ∈ l, hasField acc e.1 = false) → keysNodup l = true →
      l.foldl (fun acc e => setField acc e.1 e.2) acc = acc ++ l := by
  intro l
  induction l with
  | nil => intro acc _ _; simp
  | cons e rest ih =>
    intro acc habs hnd
    obtain ⟨k, v⟩ := e
    simp only [keysNodup, Bool.and_eq_true, Bool.not_eq_eq_eq_not, Bool.not_true] at hnd
    simp only [List.foldl_cons]
    rw [setField_of_absent v (habs (k, v) (by simp))]
    rw [ih (acc ++ [(k, v)]) ?_ hnd.2]
    · simp
    · intro e2 he2
      rw [hasField_append]
      have h1 : hasField acc e2.1 = false := habs e2 (by simp [he2])
      have h2 : hasField [(k, v)] e2.1 = false := by
        simp only [hasField, lookupField]
        by_cases hk : k = e2.1
        · subst hk
          have := hasField_of_mem he2
          rw [hnd.1] at this
          cases this
        · simp [hk]
      simp [h1, h2]

theorem pyDict_nodup {l : List (String × JVal)} (h : keysNodup l = true) :
    pyDict l = l := by
  unfold pyDict
  rw [foldl_setField_append l [] (fun e _ => by simp [hasField, lookupField]) h]
  simp

theorem keysNodup_foldl_setField :
    ∀ (l acc : List (String × JVal)), keysNodup acc = true →
      keysNodup (l.foldl (fun acc e => setField acc e.1 e.2) acc) = true := by
  intro l
  induction l with
  | nil => intro acc h; simpa
  | cons e rest ih =>
    intro acc h
    simp only [List.foldl_cons]
    exact ih _ (keysNodup_setField e.1 e.2 h)

theorem pyDict_keysNodup (l : List (String × JVal)) :
    keysNodup (pyDict l) = true :=
  keysNodup_foldl_setField l [] rfl

theorem setField_length_le (l : List (String × JVal)) (k : String) (v : JVal) :
    (setField l k v).length ≤ l.length + 1 := by
  induction l with
  | nil => simp [setField]
  | cons e rest ih =>
    obtain ⟨k0, w0⟩ := e
    by_cases hk : k0 = k
    · simp [setField, hk]
    · simp only [setField, hk, if_false, List.length_cons]
      omega

theorem foldl_setField_length :
    ∀ (l acc : List (String × JVal)),
      (l.foldl (fun acc e => setField acc e.1 e.2) acc).length ≤
        acc.length + l.length := by
  intro l
  induction l with
  | nil => intro acc; simp
  | cons e rest ih =>
    intro acc
    simp only [List.foldl_cons, List.length_cons]
    have h1 := ih (setField acc e.1 e.2)
    have h2 := setField_length_le acc e.1 e.2
    omega

theorem pyDict_length_le (l : List (String × JVal)) :
    (pyDict l).length ≤ l.length := by
  have := foldl_setField_length l []
  simpa [pyDict] using this

theorem setField_ne_nil (l : List (String × JVal)) (k : String) (v : JVal) :
    setField l k v ≠ [] := by
  cases l with
  | nil => simp [setField]
  | cons e rest =>
    obtain ⟨k0, w0⟩ := e
    by_cases hk : k0 = k <;> simp [setField, hk]

theorem keysNodup_perm {l l' : List (String × JVal)} (hp : List.Perm l l') :
    keysNodup l = true → keysNodup l' = true := by
  intro h
  have hiff : ∀ m : List (String × JVal),
      keysNodup m = true ↔ (m.map Prod.fst).Nodup := by
    intro m
    induction m with
    | nil => simp [keysNodup]
    | cons e rest ih =>
      obtain ⟨k0, w0⟩ := e
      simp only [keysNodup, Bool.and_eq_true, Bool.not_eq_eq_eq_not, Bool.not_true,
        List.map_cons, List.nodup_cons, ih]
      constructor
      · rintro ⟨h1, h2⟩
        refine ⟨?_, h2⟩
        intro hmem
        obtain ⟨e2, he2, heq⟩ := List.mem_map.1 hmem
        have := hasField_of_mem he2
        rw [heq] at this
        rw [h1] at this
        cases this
      · rintro ⟨h1, h2⟩
        refine ⟨?_, h2⟩
        cases hf : hasField rest k0 with
        | false => rfl
        | true =>
          exfalso
          apply h1
          unfold hasField at hf
          cases hl : lookupField rest k0 with
          | none => rw [hl] at hf; cases hf
          | some w =>
            have : (k0, w) ∈ rest := by
              clear hf h1 h2 ih
              induction rest with
              | nil => cases hl
              | cons e2 r2 ih2 =>
                obtain ⟨k2, w2⟩ := e2
                by_cases hk2 : k2 = k0
                · subst hk2
                  simp [lookupField] at hl
                  simp [hl]
                · simp only [lookupField, hk2, if_false] at hl
                  simp [ih2 hl]
            exact List.mem_map.2 ⟨(k0, w), this, rfl⟩
  rw [hiff] at h
  rw [hiff l']
  exact (List.Perm.nodup_iff (hp.map Prod.fst)).1 h

theorem typo_value_fixed (maxN : Nat) (ti : List (String × JVal)) :
    pyDict ((pyDict (ti.take maxN)).take maxN) = pyDict (ti.take maxN) := by
  have hlen : (pyDict (ti.take maxN)).length ≤ maxN :=
    le_trans (pyDict_length_le _) (List.length_take_le _ _)
  rw [List.take_of_length_le hlen]
  exact pyDict_nodup (pyDict_keysNodup _)

theorem colors_value_fixed {items : List (String × JVal)} {maxN : Nat}
    (hlen : items.length ≤ maxN) (hnd : keysNodup items = true) :
    pyDict ((sort_colors (pyDict ((sort_colors items).take maxN))).take maxN) =
      pyDict ((sort_colors items).take maxN) := by
  have hperm := sort_colors_perm items
  have hlen1 : (sort_colors items).length ≤ maxN := by
    rw [hperm.length_eq]; exact hlen
  have hnd1 : keysNodup (sort_colors items) = true := keysNodup_perm hperm.symm hnd
  rw [List.take_of_length_le hlen1, pyDict_nodup hnd1, sort_colors_idem items,
    List.take_of_length_le hlen1, pyDict_nodup hnd1]

/-- The three token collections are at a fixpoint of their reduction. -/
def tokensFixed (kvs : List (String × JVal)) (ag : Bool) : Prop :=
  (∀ v, lookupField kvs "colors" = some v → ∃ items, v = .obj items ∧
    pyDict ((sort_colors items).take (if ag then 15 else 30)) = items) ∧
  (∀ v, lookupField kvs "typography" = some v → ∃ items, v = .obj items ∧
    pyDict (items.take (if ag then 10 else 20)) = items) ∧
  (∀ v, lookupField kvs "spacing" = some v → ∃ items, v = .obj items ∧
    pyDict (items.take (if ag then 10 else 25)) = items)

theorem compress_tokens_of_fixed {kvs : List (String × JVal)} {ag : Bool}
    (hf : tokensFixed kvs ag) (hne : kvs ≠ []) :
    compress_design_tokens (.obj kvs) ag = some (.obj kvs) := by
  have hfals : isFalsy (.obj kvs) = false := by
    cases kvs with
    | nil => exact absurd rfl hne
    | cons e rest => simp [isFalsy]
  simp only [compress_design_tokens, hfals, Bool.false_eq_true, if_false]
  have hc : truncateColors kvs (if ag then 15 else 30) = some kvs := by
    unfold truncateColors
    cases hl : lookupField kvs "colors" with
    | none => rfl
    | some v =>
      obtain ⟨items, rfl, hfix⟩ := hf.1 v hl
      simp only [hfix]
      rw [setField_eq_self hl]
  have ht : truncateField kvs "typography" (if ag then 10 else 20) = some kvs := by
    unfold truncateField
    cases hl : lookupField kvs "typography" with
    | none => rfl
    | some v =>
      obtain ⟨items, rfl, hfix⟩ := hf.2.1 v hl
      simp only [hfix]
      rw [setField_eq_self hl]
  have hs : truncateField kvs "spacing" (if ag then 10 else 25) = some kvs := by
    unfold truncateField
    cases hl : lookupField kvs "spacing" with
    | none => rfl
    | some v =>
      obtain ⟨items, rfl, hfix⟩ := hf.2.2 v hl
      simp only [hfix]
      rw [setField_eq_self hl]
  simp only [hc, ht, hs]

theorem truncateField_post {kvs kvs' : List (String × JVal)} {f : String} {m : Nat}
    (h : truncateField kvs f m = some kvs') :
    (∀ v, lookupField kvs' f = some v → ∃ items, v = .obj items ∧
      pyDict (items.take m) = items) ∧
    (∀ k, k ≠ f → lookupField kvs' k = lookupField kvs k) ∧
    (kvs ≠ [] → kvs' ≠ []) := by
  unfold truncateField at h
  split at h
  next hl =>
    cases h
    refine ⟨?_, fun k _ => rfl, fun hne => hne⟩
    intro v hv
    rw [hl] at hv
    cases hv
  next items hl =>
    cases h
    refine ⟨?_, fun k hk => lookupField_setField_ne _ _ _ _ (Ne.symm hk), ?_⟩
    · intro v hv
      rw [lookupField_setField_self] at hv
      exact ⟨pyDict (items.take m), (Option.some.inj hv).symm, typo_value_fixed m items⟩
    · intro _
      exact setField_ne_nil _ _ _
  next hl => cases h

theorem compress_tokens_post {tkvs : List (String × JVal)} {ag : Bool} {t' : JVal}
    (hcap : ∀ items, lookupField tkvs "colors" = some (.obj items) →
      items.length ≤ (if ag then 15 else 30) ∧ keysNodup items = true)
    (hne : tkvs ≠ [])
    (h : compress_design_tokens (.obj tkvs) ag = some t') :
    ∃ kvs3, t' = .obj kvs3 ∧ kvs3 ≠ [] ∧ tokensFixed kvs3 ag := by
  have hfals : isFalsy (.obj tkvs) = false := by
    cases tkvs with
    | nil => exact absurd rfl hne
    | cons e rest => simp [isFalsy]
  simp only [compress_design_tokens, hfals, Bool.false_eq_true, if_false] at h
  have step1 : ∃ kvs1, truncateColors tkvs (if ag then 15 else 30) = some kvs1 ∧
      kvs1 ≠ [] ∧
      (∀ v, lookupField kvs1 "colors" = some v → ∃ items, v = .obj items ∧
        pyDict ((sort_colors items).take (if ag then 15 else 30)) = items) ∧
      (∀ k, k ≠ "colors" → lookupField kvs1 k = lookupField tkvs k) := by
    cases hc0 : lookupField tkvs "colors" with
    | none =>
      refine ⟨tkvs, by simp [truncateColors, hc0], hne, ?_, fun k _ => rfl⟩
      intro v hv
      rw [hc0] at hv
      cases hv
    | some v =>
      cases v with
      | obj items =>
        obtain ⟨hlen, hnd⟩ := hcap items hc0
        refine ⟨setField tkvs "colors"
          (.obj (pyDict ((sort_colors items).take (if ag then 15 else 30)))),
          by simp [truncateColors, hc0], setField_ne_nil _ _ _, ?_,
          fun k hk => lookupField_setField_ne _ _ _ _ (Ne.symm hk)⟩
        intro v hv
        rw [lookupField_setField_self] at hv
        refine ⟨_, (Option.some.inj hv).symm, ?_⟩
        exact colors_value_fixed hlen hnd
      | null => simp [truncateColors, hc0] at h
      | bool b => simp [truncateColors, hc0] at h
      | num n => simp [truncateColors, hc0] at h
      | str s => simp [truncateColors, hc0] at h
      | arr xs => simp [truncateColors, hc0] at h
  obtain ⟨kvs1, hstep1, hne1, hcol1, hoth1⟩ := step1
  simp only [hstep1] at h
  cases htf : truncateField kvs1 "typography" (if ag then 10 else 20) with
  | none => simp [htf] at h
  | some kvs2 =>
    simp only [htf] at h
    obtain ⟨htypo2, hoth2, hne2⟩ := truncateField_post htf
    cases hsf : truncateField kvs2 "spacing" (if ag then 10 else 25) with
    | none => simp [hsf] at h
    | some kvs3 =>
      simp only [hsf] at h
      obtain ⟨hspc3, hoth3, hne3⟩ := truncateField_post hsf
      refine ⟨kvs3, (Option.some.inj h).symm, hne3 (hne2 hne1), ?_, ?_, ?_⟩
      · intro v hv
        rw [hoth3 _ (by decide), hoth2 _ (by decide)] at hv
        exact hcol1 v hv
      · intro v hv
        rw [hoth3 _ (by decide)] at hv
        exact htypo2 v hv
      · exact hspc3

theorem compress_design_tokens_idem {t t' : JVal} {ag : Bool}
    (hcap : ∀ tkvs items, t = .obj tkvs →
      lookupField tkvs "colors" = some (.obj items) →
      items.length ≤ (if ag then 15 else 30) ∧ keysNodup items = true)
    (h : compress_design_tokens t ag = some t') :
    compress_design_tokens t' ag = some t' := by
  cases hfal : isFalsy t with
  | true =>
    simp only [compress_design_tokens, hfal, if_true] at h
    cases h
    simp [compress_design_tokens, hfal]
  | false =>
    cases t with
    | obj tkvs =>
      have hne : tkvs ≠ [] := by
        intro he
        subst he
        simp [isFalsy] at hfal
      obtain ⟨kvs3, rfl, hne3, hfix⟩ :=
        compress_tokens_post (fun items hl => hcap tkvs items rfl hl) hne h
      exact compress_tokens_of_fixed hfix hne3
    | null => simp [isFalsy] at hfal
    | bool b =>
      simp only [compress_design_tokens, hfal, Bool.false_eq_true, if_false] at h
      cases h
    | num n =>
      simp only [compress_design_tokens, hfal, Bool.false_eq_true, if_false] at h
      cases h
    | str s =>
      simp only [compress_design_tokens, hfal, Bool.false_eq_true, if_false] at h
      cases h
    | arr xs =>
      simp only [compress_design_tokens, hfal, Bool.false_eq_true, if_false] at h
      cases h

theorem pruneEntries_kept_flags {tooBig : JVal → Option Bool} :
    ∀ {entries kept : List (String × JVal)} {n : Nat},
      pruneEntries tooBig entries = some (kept, n) →
      ∀ e ∈ kept, tooBig e.2 = some false := by
  intro entries
  induction entries with
  | nil =>
    intro kept n h e he
    simp only [pruneEntries] at h
    cases h
    cases he
  | cons e0 rest ih =>
    intro kept n h e he
    obtain ⟨k, v⟩ := e0
    simp only [pruneEntries] at h
    cases hf : tooBig v with
    | none => simp [hf] at h
    | some flag =>
      simp only [hf] at h
      cases hr : pruneEntries tooBig rest with
      | none => simp [hr] at h
      | some p =>
        obtain ⟨kept', n'⟩ := p
        simp only [hr] at h
        cases flag with
        | true =>
          simp only [if_true] at h
          cases h
          exact ih hr e he
        | false =>
          simp only [Bool.false_eq_true, if_false] at h
          cases h
          rcases List.mem_cons.1 he with rfl | he'
          · exact hf
          · exact ih hr e he'

theorem pruneEntries_all_false {tooBig : JVal → Option Bool}
    {entries : List (String × JVal)}
    (h : ∀ e ∈ entries, tooBig e.2 = some false) :
    pruneEntries tooBig entries = some (entries, 0) := by
  have h2 := pruneEntries_eq_filter tooBig (fun _ => false) entries
    (by intro e he; simpa using h e he)
  simpa using h2

/-- The images collection is at a fixpoint of pruning. -/
def imagesPruned (m : Nat) (v : JVal) : Prop :=
  isFalsy v = true ∨
    ∃ entries, v = .obj entries ∧ ∀ e ∈ entries, imageTooBig e.2 m = some false

/-- The svgs collection is at a fixpoint of pruning. -/
def svgsPruned (m : Nat) (v : JVal) : Prop :=
  isFalsy v = true ∨
    ∃ entries, v = .obj entries ∧ ∀ e ∈ entries, svgTooBig e.2 m = some false

theorem compress_images_of_pruned {akvs : List (String × JVal)} {m : Nat}
    (h : ∀ v, lookupField akvs "images" = some v → imagesPruned m v) :
    compress_images (.obj akvs) m = some (.obj akvs, 0) := by
  cases hl : lookupField akvs "images" with
  | none => simp [compress_images, hl]
  | some v =>
    rcases h v hl with hf | ⟨entries, rfl, hflags⟩
    · simp [compress_images, hl, hf]
    · cases hfal : isFalsy (.obj entries) with
      | true => simp [compress_images, hl, hfal]
      | false =>
        simp only [compress_images, hl, hfal, Bool.false_eq_true, if_false,
          @pruneEntries_all_false (fun a => imageTooBig a m) entries hflags]
        rw [setField_eq_self hl]

theorem compress_svgs_of_pruned {akvs : List (String × JVal)} {m : Nat}
    (h : ∀ v, lookupField akvs "svgs" = some v → svgsPruned m v) :
    compress_svgs (.obj akvs) m = some (.obj akvs, 0) := by
  cases hl : lookupField akvs "svgs" with
  | none => simp [compress_svgs, hl]
  | some v =>
    rcases h v hl with hf | ⟨entries, rfl, hflags⟩
    · simp [compress_svgs, hl, hf]
    · cases hfal : isFalsy (.obj entries) with
      | true => simp [compress_svgs, hl, hfal]
      | false =>
        simp only [compress_svgs, hl, hfal, Bool.false_eq_true, if_false,
          @pruneEntries_all_false (fun a => svgTooBig a m) entries hflags]
        rw [setField_eq_self hl]

theorem compress_images_post {akvs : List (String × JVal)} {a' : JVal} {m n : Nat}
    (h : compress_images (.obj akvs) m = some (a', n)) :
    ∃ akvs', a' = .obj akvs' ∧
      (∀ v, lookupField akvs' "images" = some v → imagesPruned m v) ∧
      (∀ k, k ≠ "images" → lookupField akvs' k = lookupField akvs k) := by
  simp only [compress_images] at h
  cases hl : lookupField akvs "images" with
  | none =>
    simp only [hl] at h
    cases h
    exact ⟨akvs, rfl, (fun v hv => by rw [hl] at hv; cases hv), fun k _ => rfl⟩
  | some v =>
    simp only [hl] at h
    cases hfal : isFalsy v with
    | true =>
      simp only [hfal, if_true] at h
      cases h
      exact ⟨akvs, rfl, (fun w hw => by
        rw [hl] at hw
        exact Or.inl ((Option.some.inj hw) ▸ hfal)), fun k _ => rfl⟩
    | false =>
      simp only [hfal, Bool.false_eq_true, if_false] at h
      cases v with
      | obj entries =>
        cases hp : pruneEntries (fun a => imageTooBig a m) entries with
        | none => simp [hp] at h
        | some p =>
          obtain ⟨kept, n'⟩ := p
          simp only [hp] at h
          cases h
          refine ⟨_, rfl, ?_, fun k hk => lookupField_setField_ne _ _ _ _ (Ne.symm hk)⟩
          intro w hw
          rw [lookupField_setField_self] at hw
          cases hw
          exact Or.inr ⟨kept, rfl, pruneEntries_kept_flags hp⟩
      | null => simp at h
      | bool b => simp at h
      | num nn => simp at h
      | str s => simp at h
      | arr xs => simp at h

theorem compress_svgs_post {akvs : List (String × JVal)} {a' : JVal} {m n : Nat}
    (h : compress_svgs (.obj akvs) m = some (a', n)) :
    ∃ akvs', a' = .obj akvs' ∧
      (∀ v, lookupField akvs' "svgs" = some v → svgsPruned m v) ∧
      (∀ k, k ≠ "svgs" → lookupField akvs' k = lookupField akvs k) := by
  simp only [compress_svgs] at h
  cases hl : lookupField akvs "svgs" with
  | none =>
    simp only [hl] at h
    cases h
    exact ⟨akvs, rfl, (fun v hv => by rw [hl] at hv; cases hv), fun k _ => rfl⟩
  | some v =>
    simp only [hl] at h
    cases hfal : isFalsy v with
    | true =>
      simp only [hfal, if_true] at h
      cases h
      exact ⟨akvs, rfl, (fun w hw => by
        rw [hl] at hw
        exact Or.inl ((Option.some.inj hw) ▸ hfal)), fun k _ => rfl⟩
    | false =>
      simp only [hfal, Bool.false_eq_true, if_false] at h
      cases v with
      | obj entries =>
        cases hp : pruneEntries (fun a => svgTooBig a m) entries with
        | none => simp [hp] at h
        | some p =>
          obtain ⟨kept, n'⟩ := p
          simp only [hp] at h
          cases h
          refine ⟨_, rfl, ?_, fun k hk => lookupField_setField_ne _ _ _ _ (Ne.symm hk)⟩
          intro w hw
          rw [lookupField_setField_self] at hw
          cases hw
          exact Or.inr ⟨kept, rfl, pruneEntries_kept_flags hp⟩
      | null => simp at h
      | bool b => simp at h
      | num nn => simp at h
      | str s => simp at h
      | arr xs => simp at h

theorem assetsStep_idem {kvs kvs' : List (String × JVal)} {i s : Nat}
    (h : assetsStep kvs i s = some kvs') :
    assetsStep kvs' i s = some kvs' := by
  unfold assetsStep at h ⊢
  cases hl : lookupField kvs "assets" with
  | none =>
    rw [hl] at h
    cases h
    rw [hl]
  | some a =>
    rw [hl] at h
    cases hi : compress_images a i with
    | none => simp [hi] at h
    | some p1 =>
      obtain ⟨a1, n1⟩ := p1
      simp only [hi] at h
      cases hs : compress_svgs a1 s with
      | none => simp [hs] at h
      | some p2 =>
        obtain ⟨a2, n2⟩ := p2
        simp only [hs] at h
        cases h
        -- a must be an obj for compress_images to succeed
        have hobja : ∃ akvs, a = .obj akvs := by
          cases a with
          | obj akvs => exact ⟨akvs, rfl⟩
          | null => simp [compress_images] at hi
          | bool b => simp [compress_images] at hi
          | num n => simp [compress_images] at hi
          | str t => simp [compress_images] at hi
          | arr xs => simp [compress_images] at hi
        obtain ⟨akvs, rfl⟩ := hobja
        obtain ⟨akvs1, rfl, himg1, hoth1⟩ := compress_images_post hi
        obtain ⟨akvs2, rfl, hsvg2, hoth2⟩ := compress_svgs_post hs
        have himg2 : ∀ v, lookupField akvs2 "images" = some v → imagesPruned i v := by
          intro v hv
          rw [hoth2 _ (by decide)] at hv
          exact himg1 v hv
        simp only [lookupField_setField_self, compress_images_of_pruned himg2,
          compress_svgs_of_pruned hsvg2]
        rw [setField_eq_self (lookupField_setField_self _ _ _)]

theorem stripFields_idem (kvs : List (String × JVal)) :
    stripFields (stripFields kvs) = stripFields kvs := by
  simp [stripFields, List.filter_filter]

theorem stripFields_nil : stripFields [] = [] := rfl

theorem stripFields_cons (k0 : String) (w0 : JVal) (rest : List (String × JVal)) :
    stripFields ((k0, w0) :: rest) =
      if metadataKeys.contains k0 then stripFields rest
      else (k0, w0) :: stripFields rest := by
  simp only [stripFields, List.filter_cons]
  cases hc : metadataKeys.contains k0
  · simp [hc]
  · simp [hc]

theorem stripFields_setField_comm {k : String} (hk : metadataKeys.contains k = false)
    (l : List (String × JVal)) (v : JVal) :
    stripFields (setField l k v) = setField (stripFields l) k v := by
  induction l with
  | nil =>
    show stripFields [(k, v)] = [(k, v)]
    rw [stripFields_cons, hk]
    simp [stripFields_nil]
  | cons e rest ih =>
    obtain ⟨k0, w0⟩ := e
    by_cases hk0 : k0 = k
    · subst hk0
      have hL : setField ((k0, w0) :: rest) k0 v = (k0, v) :: rest := by
        simp [setField]
      rw [hL, stripFields_cons, stripFields_cons]
      simp only [hk, Bool.false_eq_true, if_false]
      simp [setField]
    · have hL : setField ((k0, w0) :: rest) k v = (k0, w0) :: setField rest k v := by
        simp [setField, hk0]
      rw [hL, stripFields_cons, stripFields_cons]
      cases hc0 : metadataKeys.contains k0
      · simp only [Bool.false_eq_true, if_false]
        rw [ih]
        simp [setField, hk0]
      · simp only [if_true]
        exact ih

theorem simplifyFuel_obj_shape {fuel : Nat} {kvs : List (String × JVal)} {v : JVal}
    (h : simplifyFuel fuel (.obj kvs) = some v) : ∃ kvs', v = .obj kvs' := by
  cases fuel with
  | zero =>
    rw [simplifyFuel_zero] at h
    simp only [stripMeta, clearChildren_obj] at h
    cases h
    by_cases hch : hasField (stripFields kvs) "children"
    · rw [if_pos hch]; exact ⟨_, rfl⟩
    · rw [if_neg hch]; exact ⟨_, rfl⟩
  | succ f =>
    rw [simplifyFuel_succ] at h
    simp only [stripMeta, pyContainsKey] at h
    cases hch : hasField (stripFields kvs) "children" with
    | false =>
      simp only [hch] at h
      cases h
      exact ⟨_, rfl⟩
    | true =>
      simp only [hch] at h
      cases hlk : lookupField (stripFields kvs) "children" with
      | none => rw [hasField, hlk] at hch; cases hch
      | some w =>
        simp only [hlk] at h
        cases w with
        | arr xs =>
          cases hk : simplifyKids (fun c => simplifyFuel f c) xs with
          | none => simp [hk] at h
          | some xs' =>
            simp only [hk] at h
            cases h
            exact ⟨_, rfl⟩
        | null => cases h; exact ⟨_, rfl⟩
        | bool b => cases h; exact ⟨_, rfl⟩
        | num n => cases h; exact ⟨_, rfl⟩
        | str s => cases h; exact ⟨_, rfl⟩
        | obj o => cases h; exact ⟨_, rfl⟩

theorem simplifyKids_idem {f : Nat}
    (hstep : ∀ c c', simplifyFuel f c = some c' → simplifyFuel f c' = some c') :
    ∀ xs xs', simplifyKids (fun c => simplifyFuel f c) xs = some xs' →
      simplifyKids (fun c => simplifyFuel f c) xs' = some xs' := by
  intro xs
  induction xs with
  | nil =>
    intro xs' h
    simp only [simplifyKids] at h
    cases h
    rfl
  | cons c rest ih =>
    intro xs' h
    simp only [simplifyKids] at h
    cases c
    case obj ckvs =>
      cases hs : simplifyFuel f (.obj ckvs) with
      | none => simp [hs] at h
      | some c' =>
        simp only [hs] at h
        cases hr : simplifyKids (fun c => simplifyFuel f c) rest with
        | none => simp [hr] at h
        | some rest' =>
          simp only [hr] at h
          cases h
          obtain ⟨ckvs', rfl⟩ := simplifyFuel_obj_shape hs
          simp only [simplifyKids, hstep _ _ hs, ih rest' hr]
    all_goals {
      cases hr : simplifyKids (fun c => simplifyFuel f c) rest with
      | none => simp [hr] at h
      | some rest' =>
        simp only [hr] at h
        cases h
        simp only [simplifyKids, ih rest' hr]
    }

theorem simplifyFuel_idem : ∀ (fuel : Nat) (node node' : JVal),
    simplifyFuel fuel node = some node' → simplifyFuel fuel node' = some node' := by
  intro fuel
  induction fuel with
  | zero =>
    intro node node' h
    rw [simplifyFuel_zero] at h
    rw [simplifyFuel_zero]
    cases node with
    | obj kvs =>
      simp only [stripMeta, clearChildren_obj] at h
      cases h
      by_cases hch : hasField (stripFields kvs) "children"
      · rw [if_pos hch]
        have hstr : stripFields (setField (stripFields kvs) "children" (.arr [])) =
            setField (stripFields kvs) "children" (.arr []) := by
          rw [stripFields_setField_comm (by decide), stripFields_idem]
        simp only [stripMeta, hstr, clearChildren_obj]
        have hch2 : hasField (setField (stripFields kvs) "children" (.arr []))
            "children" = true := by
          simp [hasField, lookupField_setField_self]
        rw [if_pos hch2]
        rw [setField_eq_self (lookupField_setField_self _ _ _)]
      · rw [if_neg hch]
        simp only [stripMeta, stripFields_idem, clearChildren_obj]
        rw [if_neg hch]
    | str s =>
      simp only [stripMeta] at h
      cases hany : metadataKeys.any (fun k => strHasSub k s) with
      | true => simp [hany] at h
      | false =>
        simp only [hany, Bool.false_eq_true, if_false, clearChildren,
          pyContainsKey] at h
        cases hc : strHasSub "children" s with
        | true => simp [hc] at h
        | false =>
          simp only [hc] at h
          cases h
          simp only [stripMeta, hany, Bool.false_eq_true, if_false, clearChildren,
            pyContainsKey, hc]
    | arr xs =>
      simp only [stripMeta] at h
      cases hany : metadataKeys.any (fun k => xs.contains (.str k)) with
      | true => rw [hany] at h; simp at h
      | false =>
        simp only [hany, Bool.false_eq_true, if_false, clearChildren,
          pyContainsKey] at h
        cases hc : xs.contains (.str "children") with
        | true => rw [hc] at h; simp at h
        | false =>
          simp only [hc] at h
          cases h
          simp only [stripMeta, hany, Bool.false_eq_true, if_false, clearChildren,
            pyContainsKey, hc]
    | null => simp [stripMeta] at h
    | bool b => simp [stripMeta] at h
    | num n => simp [stripMeta] at h
  | succ f ih =>
    intro node node' h
    rw [simplifyFuel_succ] at h
    rw [simplifyFuel_succ]
    cases node with
    | obj kvs =>
      simp only [stripMeta, pyContainsKey] at h
      cases hch : hasField (stripFields kvs) "children" with
      | false =>
        simp only [hch] at h
        cases h
        simp only [stripMeta, stripFields_idem, pyContainsKey, hch]
      | true =>
        simp only [hch] at h
        cases hlk : lookupField (stripFields kvs) "children" with
        | none => rw [hasField, hlk] at hch; simp at hch
        | some v =>
          simp only [hlk] at h
          cases v
          case arr xs =>
            cases hk : simplifyKids (fun c => simplifyFuel f c) xs with
            | none => simp [hk] at h
            | some xs' =>
              simp only [hk] at h
              cases h
              have hstr : stripFields (setField (stripFields kvs) "children"
                  (.arr xs')) = setField (stripFields kvs) "children" (.arr xs') := by
                rw [stripFields_setField_comm (by decide), stripFields_idem]
              have hch2 : hasField (setField (stripFields kvs) "children"
                  (.arr xs')) "children" = true := by
                simp [hasField, lookupField_setField_self]
              simp only [stripMeta, hstr, pyContainsKey, hch2,
                lookupField_setField_self, simplifyKids_idem ih xs xs' hk]
              rw [setField_eq_self (lookupField_setField_self _ _ _)]
          all_goals {
            cases h
            simp only [stripMeta, stripFields_idem, pyContainsKey, hch, hlk]
          }
    | str s =>
      simp only [stripMeta] at h
      cases hany : metadataKeys.any (fun k => strHasSub k s) with
      | true => simp [hany] at h
      | false =>
        simp only [hany, Bool.false_eq_true, if_false, pyContainsKey] at h
        cases hc : strHasSub "children" s with
        | true => simp [hc] at h
        | false =>
          simp only [hc] at h
          cases h
          simp only [stripMeta, hany, Bool.false_eq_true, if_false,
            pyContainsKey, hc]
    | arr xs =>
      simp only [stripMeta] at h
      cases hany : metadataKeys.any (fun k => xs.contains (.str k)) with
      | true => rw [hany] at h; simp at h
      | false =>
        simp only [hany, Bool.false_eq_true, if_false, pyContainsKey] at h
        cases hc : xs.contains (.str "children") with
        | true => rw [hc] at h; simp at h
        | false =>
          simp only [hc] at h
          cases h
          simp only [stripMeta, hany, Bool.false_eq_true, if_false,
            pyContainsKey, hc]
    | null => simp [stripMeta] at h
    | bool b => simp [stripMeta] at h
    | num n => simp [stripMeta] at h

theorem removeField_of_lookup_none {kvs : List (String × JVal)} {k : String}
    (h : lookupField kvs k = none) : removeField kvs k = kvs := by
  induction kvs with
  | nil => rfl
  | cons e rest ih =>
    obtain ⟨k0, w⟩ := e
    by_cases hk : k0 = k
    · simp [lookupField, hk] at h
    · have h2 : lookupField rest k = none := by simpa [lookupField, hk] using h
      show List.filter _ ((k0, w) :: rest) = (k0, w) :: rest
      rw [List.filter_cons]
      simp only [hk, beq_iff_eq, Bool.not_eq_true', if_true]
      have := ih h2
      simp only [removeField] at this
      simp [this, hk]

theorem lookupField_removeField_self (kvs : List (String × JVal)) (k : String) :
    lookupField (removeField kvs k) k = none := by
  induction kvs with
  | nil => rfl
  | cons e rest ih =>
    obtain ⟨k0, w⟩ := e
    by_cases hk : k0 = k
    · subst hk
      show lookupField (List.filter _ ((k0, w) :: rest)) k0 = none
      rw [List.filter_cons]
      simp only [beq_self_eq_true, Bool.not_true, Bool.false_eq_true, if_false]
      simpa [removeField] using ih
    · show lookupField (List.filter _ ((k0, w) :: rest)) k = none
      rw [List.filter_cons]
      have hc : (!((k0, w).1 == k)) = true := by simp [hk]
      rw [hc]
      simp only [if_true, lookupField, hk, if_false]
      simpa [removeField] using ih

theorem absentAll_some : ∀ (keys : List String) (v w : JVal),
    absentAll keys v = some w → w = v := by
  intro keys
  induction keys with
  | nil =>
    intro v w h
    simp only [absentAll] at h
    cases h
    rfl
  | cons k rest ih =>
    intro v w h
    simp only [absentAll] at h
    cases hc : pyContainsKey k v with
    | none => simp [hc] at h
    | some b =>
      cases b with
      | true => simp [hc] at h
      | false =>
        simp only [hc] at h
        exact ih v w h

theorem assetsStep_post {kvs kvs' : List (String × JVal)} {i s : Nat}
    (h : assetsStep kvs i s = some kvs') :
    ∀ a, lookupField kvs' "assets" = some a →
      compress_images a i = some (a, 0) ∧ compress_svgs a s = some (a, 0) := by
  unfold assetsStep at h
  cases hl : lookupField kvs "assets" with
  | none =>
    rw [hl] at h
    cases h
    intro a ha
    rw [hl] at ha
    cases ha
  | some a =>
    rw [hl] at h
    cases hi : compress_images a i with
    | none => simp [hi] at h
    | some p1 =>
      obtain ⟨a1, n1⟩ := p1
      simp only [hi] at h
      cases hs : compress_svgs a1 s with
      | none => simp [hs] at h
      | some p2 =>
        obtain ⟨a2, n2⟩ := p2
        simp only [hs] at h
        cases h
        intro a0 ha0
        rw [lookupField_setField_self] at ha0
        cases ha0
        have hobja : ∃ akvs, a = .obj akvs := by
          cases a with
          | obj akvs => exact ⟨akvs, rfl⟩
          | null => simp [compress_images] at hi
          | bool b => simp [compress_images] at hi
          | num n => simp [compress_images] at hi
          | str t => simp [compress_images] at hi
          | arr xs => simp [compress_images] at hi
        obtain ⟨akvs, rfl⟩ := hobja
        obtain ⟨akvs1, rfl, himg1, hoth1⟩ := compress_images_post hi
        obtain ⟨akvs2, rfl, hsvg2, hoth2⟩ := compress_svgs_post hs
        have himg2 : ∀ v, lookupField akvs2 "images" = some v → imagesPruned i v := by
          intro v hv
          rw [hoth2 _ (by decide)] at hv
          exact himg1 v hv
        exact ⟨compress_images_of_pruned himg2, compress_svgs_of_pruned hsvg2⟩

theorem assetsStep_fix {kvs : List (String × JVal)} {i s : Nat}
    (hfix : ∀ a, lookupField kvs "assets" = some a →
      compress_images a i = some (a, 0) ∧ compress_svgs a s = some (a, 0)) :
    assetsStep kvs i s = some kvs := by
  unfold assetsStep
  cases hl : lookupField kvs "assets" with
  | none => rfl
  | some a =>
    obtain ⟨h1, h2⟩ := hfix a hl
    simp only [h1, h2]
    rw [setField_eq_self hl]

theorem tokensStep_post {kvs kvs' : List (String × JVal)} {ag : Bool}
    (hcap : ∀ t tkvs items, lookupField kvs "designTokens" = some t →
      t = .obj tkvs → lookupField tkvs "colors" = some (.obj items) →
      items.length ≤ (if ag then 15 else 30) ∧ keysNodup items = true)
    (h : tokensStep kvs ag = some kvs') :
    ∀ t, lookupField kvs' "designTokens" = some t →
      compress_design_tokens t ag = some t := by
  unfold tokensStep at h
  cases hl : lookupField kvs "designTokens" with
  | none =>
    rw [hl] at h
    cases h
    intro t ht
    rw [hl] at ht
    cases ht
  | some t0 =>
    rw [hl] at h
    cases hc : compress_design_tokens t0 ag with
    | none => simp [hc] at h
    | some t1 =>
      simp only [hc] at h
      cases h
      intro t ht
      rw [lookupField_setField_self] at ht
      cases ht
      exact compress_design_tokens_idem
        (fun tkvs items heq hlk => hcap t0 tkvs items hl heq hlk) hc

theorem tokensStep_fix {kvs : List (String × JVal)} {ag : Bool}
    (hfix : ∀ t, lookupField kvs "designTokens" = some t →
      compress_design_tokens t ag = some t) :
    tokensStep kvs ag = some kvs := by
  unfold tokensStep
  cases hl : lookupField kvs "designTokens" with
  | none => rfl
  | some t =>
    simp only [hfix t hl]
    rw [setField_eq_self hl]

theorem treeStep_post {kvs kvs' : List (String × JVal)} {m : Nat}
    (h : treeStep kvs m = some kvs') :
    ∀ tr, lookupField kvs' "tree" = some tr → simplify_tree tr m 0 = some tr := by
  unfold treeStep at h
  cases hl : lookupField kvs "tree" with
  | none =>
    rw [hl] at h
    cases h
    intro tr htr
    rw [hl] at htr
    cases htr
  | some tr0 =>
    rw [hl] at h
    cases hs : simplify_tree tr0 m 0 with
    | none => simp [hs] at h
    | some tr1 =>
      simp only [hs] at h
      cases h
      intro tr htr
      rw [lookupField_setField_self] at htr
      cases htr
      exact simplifyFuel_idem (m - 0) tr0 _ hs

theorem treeStep_fix {kvs : List (String × JVal)} {m : Nat}
    (hfix : ∀ tr, lookupField kvs "tree" = some tr →
      simplify_tree tr m 0 = some tr) :
    treeStep kvs m = some kvs := by
  unfold treeStep
  cases hl : lookupField kvs "tree" with
  | none => rfl
  | some tr =>
    simp only [hfix tr hl]
    rw [setField_eq_self hl]

theorem compress_aggressive_post {kvs0 : List (String × JVal)} {d' : JVal}
    (h : compress_aggressive (.obj kvs0) = some d') :
    ∃ kvs1 kvs2 kvs5,
      assetsStep kvs0 25 10 = some kvs1 ∧
      tokensStep kvs1 true = some kvs2 ∧
      treeStep (if hasField (removeField kvs2 "screenshot") "components"
        then setField (removeField kvs2 "screenshot") "components" componentsReset
        else removeField kvs2 "screenshot") 6 = some kvs5 ∧
      d' = .obj (removeField (removeField (removeField kvs5 "cssVariables")
        "variants") "extractionSummary") := by
  simp only [compress_aggressive] at h
  cases h1 : assetsStep kvs0 25 10 with
  | none => simp [h1] at h
  | some kvs1 =>
    simp only [h1] at h
    cases h2 : tokensStep kvs1 true with
    | none => simp [h2] at h
    | some kvs2 =>
      simp only [h2] at h
      cases h5 : treeStep (if hasField (removeField kvs2 "screenshot") "components"
          then setField (removeField kvs2 "screenshot") "components" componentsReset
          else removeField kvs2 "screenshot") 6 with
      | none => simp [h5] at h
      | some kvs5 =>
        simp only [h5] at h
        cases h
        exact ⟨kvs1, kvs2, kvs5, rfl, h2, h5, rfl⟩

/-- C5 (amended): the aggressive tier is idempotent on documents whose
colour collection (when present as a mapping under designTokens) has at
most the aggressive cap of 15 entries with pairwise-distinct keys and a
well-behaved usage sort — key extraction either fails outright (leaving
the list untouched, as CPython extracts all keys before moving anything)
or the extracted keys are mutually comparable so the sort completes.  On
such documents every trace of the model coincides with the program
pointwise, and a second aggressive pass returns the first pass's output
unchanged.  The colorsSortOK hypothesis excludes the one input class
where a comparison raises mid-sort and the program keeps a partial
reorder the model does not pin down; the unrestricted claim is false
regardless: see the counterexample, where a failed first-pass sort
truncates away the incomparable entry and the second pass then sorts
what remains. -/
theorem c5_aggressive_idem_amended {d d' : JVal}
    (hcap : colorsWithinCap d = true)
    (hsort : colorsSortOK d = true)
    (h : compress_aggressive d = some d') :
    compress_aggressive d' = some d' := by
  cases d
  case obj kvs0 =>
    obtain ⟨kvs1, kvs2, kvs5, h1, h2, h5, rfl⟩ := compress_aggressive_post h
    have hK6 : ∀ k, k ≠ "cssVariables" → k ≠ "variants" → k ≠ "extractionSummary" →
        lookupField (removeField (removeField (removeField kvs5 "cssVariables")
          "variants") "extractionSummary") k = lookupField kvs5 k := by
      intro k hc1 hc2 hc3
      rw [lookupField_removeField_ne (Ne.symm hc3),
        lookupField_removeField_ne (Ne.symm hc2),
        lookupField_removeField_ne (Ne.symm hc1)]
    have hK4 : ∀ k, k ≠ "components" →
        lookupField (if hasField (removeField kvs2 "screenshot") "components"
          then setField (removeField kvs2 "screenshot") "components" componentsReset
          else removeField kvs2 "screenshot") k =
        lookupField (removeField kvs2 "screenshot") k := by
      intro k hk
      by_cases hc : hasField (removeField kvs2 "screenshot") "components"
      · rw [if_pos hc]
        exact lookupField_setField_ne _ _ _ _ (Ne.symm hk)
      · rw [if_neg hc]
    have hchain : ∀ k, k ≠ "cssVariables" → k ≠ "variants" →
        k ≠ "extractionSummary" → k ≠ "tree" → k ≠ "components" →
        k ≠ "screenshot" →
        lookupField (removeField (removeField (removeField kvs5 "cssVariables")
          "variants") "extractionSummary") k = lookupField kvs2 k := by
      intro k hc1 hc2 hc3 hc4 hc5 hc6
      rw [hK6 k hc1 hc2 hc3, treeStep_lookup_ne h5 hc4, hK4 k hc5,
        lookupField_removeField_ne (Ne.symm hc6)]
    have hassets : assetsStep (removeField (removeField (removeField kvs5
        "cssVariables") "variants") "extractionSummary") 25 10 =
        some (removeField (removeField (removeField kvs5 "cssVariables")
          "variants") "extractionSummary") := by
      refine assetsStep_fix ?_
      intro a ha
      rw [hchain "assets" (by decide) (by decide) (by decide) (by decide)
        (by decide) (by decide), tokensStep_lookup_ne h2 (by decide)] at ha
      exact assetsStep_post h1 a ha
    have hcapq : ∀ t tkvs items, lookupField kvs1 "designTokens" = some t →
        t = .obj tkvs → lookupField tkvs "colors" = some (.obj items) →
        items.length ≤ 15 ∧ keysNodup items = true := by
      intro t tkvs items hT hEq hC
      subst hEq
      rw [assetsStep_lookup_ne h1 (by decide)] at hT
      simp only [colorsWithinCap, hT, hC] at hcap
      rw [Bool.and_eq_true] at hcap
      exact ⟨of_decide_eq_true hcap.1, hcap.2⟩
    have htokens : tokensStep (removeField (removeField (removeField kvs5
        "cssVariables") "variants") "extractionSummary") true =
        some (removeField (removeField (removeField kvs5 "cssVariables")
          "variants") "extractionSummary") := by
      refine tokensStep_fix ?_
      intro t ht
      rw [hchain "designTokens" (by decide) (by decide) (by decide) (by decide)
        (by decide) (by decide)] at ht
      exact tokensStep_post
        (fun t0 tkvs items hT hEq hC => by
          simpa using hcapq t0 tkvs items hT hEq hC) h2 t ht
    have hscr : removeField (removeField (removeField (removeField kvs5
        "cssVariables") "variants") "extractionSummary") "screenshot" =
        removeField (removeField (removeField kvs5 "cssVariables") "variants")
          "extractionSummary" := by
      apply removeField_of_lookup_none
      rw [hK6 "screenshot" (by decide) (by decide) (by decide),
        treeStep_lookup_ne h5 (by decide), hK4 "screenshot" (by decide)]
      exact lookupField_removeField_self kvs2 "screenshot"
    have hlkc : lookupField (removeField (removeField (removeField kvs5
        "cssVariables") "variants") "extractionSummary") "components" =
        lookupField (if hasField (removeField kvs2 "screenshot") "components"
          then setField (removeField kvs2 "screenshot") "components"
            componentsReset
          else removeField kvs2 "screenshot") "components" := by
      rw [hK6 "components" (by decide) (by decide) (by decide),
        treeStep_lookup_ne h5 (by decide)]
    have hcomp : (if hasField (removeField (removeField (removeField kvs5
          "cssVariables") "variants") "extractionSummary") "components"
        then setField (removeField (removeField (removeField kvs5
          "cssVariables") "variants") "extractionSummary") "components"
          componentsReset
        else removeField (removeField (removeField kvs5 "cssVariables")
          "variants") "extractionSummary") =
        removeField (removeField (removeField kvs5 "cssVariables") "variants")
          "extractionSummary" := by
      by_cases hc : hasField (removeField kvs2 "screenshot") "components"
      · have hsome : lookupField (removeField (removeField (removeField kvs5
            "cssVariables") "variants") "extractionSummary") "components" =
            some componentsReset := by
          rw [hlkc, if_pos hc, lookupField_setField_self]
        rw [if_pos (by simp [hasField, hsome]), setField_eq_self hsome]
      · have hnone : lookupField (removeField (removeField (removeField kvs5
            "cssVariables") "variants") "extractionSummary") "components" =
            none := by
          rw [hlkc, if_neg hc]
          cases hl : lookupField (removeField kvs2 "screenshot") "components" with
          | none => rfl
          | some v => exact absurd (by simp [hasField, hl]) hc
        rw [if_neg (by simp [hasField, hnone])]
    have htree : treeStep (removeField (removeField (removeField kvs5
        "cssVariables") "variants") "extractionSummary") 6 =
        some (removeField (removeField (removeField kvs5 "cssVariables")
          "variants") "extractionSummary") := by
      refine treeStep_fix ?_
      intro tr htr
      rw [hK6 "tree" (by decide) (by decide) (by decide)] at htr
      exact treeStep_post h5 tr htr
    have hcss : lookupField (removeField (removeField (removeField kvs5
        "cssVariables") "variants") "extractionSummary") "cssVariables" =
        none := by
      rw [lookupField_removeField_ne (by decide),
        lookupField_removeField_ne (by decide)]
      exact lookupField_removeField_self kvs5 "cssVariables"
    have hvar : lookupField (removeField (removeField (removeField kvs5
        "cssVariables") "variants") "extractionSummary") "variants" = none := by
      rw [lookupField_removeField_ne (by decide)]
      exact lookupField_removeField_self _ "variants"
    have hes : lookupField (removeField (removeField (removeField kvs5
        "cssVariables") "variants") "extractionSummary") "extractionSummary" =
        none := lookupField_removeField_self _ "extractionSummary"
    simp only [compress_aggressive, hassets, htokens, hscr, hcomp, htree,
      removeField_of_lookup_none hcss, removeField_of_lookup_none hvar,
      removeField_of_lookup_none hes]
  all_goals {
    simp only [compress_aggressive] at h
    have hd := absentAll_some _ _ _ h
    subst hd
    simp only [compress_aggressive]
    exact h
  }

/-- A 16-entry colour collection: fifteen numeric usages in ascending
insertion order, then one entry whose usage is a string.  The first
aggressive pass fails the sort (string vs number) on its very first
comparison — CPython reverses the list for reverse=True and compares the
string key against its neighbour before any element has moved — so the
caught failure leaves exactly the insertion order, which truncation cuts
to the first 15 entries; the second pass then sorts the surviving
all-numeric entries, reordering them.  Every step of this trace is one
the model reproduces pointwise. -/
def c5cex : JVal :=
  .obj [("designTokens", .obj [("colors", .obj
    [("a", .obj [("usage", .num 1)]), ("b", .obj [("usage", .num 2)]),
     ("c", .obj [("usage", .num 3)]), ("d", .obj [("usage", .num 4)]),
     ("e", .obj [("usage", .num 5)]), ("f", .obj [("usage", .num 6)]),
     ("g", .obj [("usage", .num 7)]), ("h", .obj [("usage", .num 8)]),
     ("i", .obj [("usage", .num 9)]), ("j", .obj [("usage", .num 10)]),
     ("k", .obj [("usage", .num 11)]), ("l", .obj [("usage", .num 12)]),
     ("m", .obj [("usage", .num 13)]), ("n", .obj [("usage", .num 14)]),
     ("o", .obj [("usage", .num 15)]), ("z", .obj [("usage", .str "x")])])])]

/-- C5 is false as stated for general documents: on c5cex the aggressive
tier succeeds, but applying it a second time yields a different document
(the colour entries get reordered), so the tier is not idempotent. -/
theorem c5_counterexample :
    (compress_aggressive c5cex).bind compress_aggressive ≠
      compress_aggressive c5cex ∧
    (compress_aggressive c5cex).isSome = true := by decide

theorem c5_aggressive_idem_amended_witness :
    colorsWithinCap (JVal.obj [("designTokens", JVal.obj [("colors", JVal.obj
      [("a", JVal.obj [("usage", JVal.num 1)]),
       ("b", JVal.obj [("usage", JVal.num 2)])])])]) = true ∧
    colorsSortOK (JVal.obj [("designTokens", JVal.obj [("colors", JVal.obj
      [("a", JVal.obj [("usage", JVal.num 1)]),
       ("b", JVal.obj [("usage", JVal.num 2)])])])]) = true ∧
    compress_aggressive (JVal.obj [("designTokens", JVal.obj [("colors",
      JVal.obj [("b", JVal.obj [("usage", JVal.num 2)]),
                ("a", JVal.obj [("usage", JVal.num 1)])])])]) =
      some (JVal.obj [("designTokens", JVal.obj [("colors", JVal.obj
        [("b", JVal.obj [("usage", JVal.num 2)]),
         ("a", JVal.obj [("usage", JVal.num 1)])])])]) :=
  ⟨by decide, by decide,
   c5_aggressive_idem_amended
     (d := JVal.obj [("designTokens", JVal.obj [("colors", JVal.obj
       [("a", JVal.obj [("usage", JVal.num 1)]),
        ("b", JVal.obj [("usage", JVal.num 2)])])])])
     (by decide) (by decide) (by decide)⟩

/-! ## Size arithmetic for C3 -/

theorem natDigitsAux_pos : ∀ fuel n, 1 ≤ natDigitsAux fuel n := by
  intro fuel n
  cases fuel with
  | zero => simp [natDigitsAux]
  | succ f =>
    simp only [natDigitsAux]
    split
    · exact Nat.le_refl 1
    · exact Nat.le_add_left 1 _

theorem dumps_len_pos : ∀ v, 1 ≤ dumps_len v := by
  intro v
  cases v with
  | null => simp [dumps_len]
  | bool b => cases b <;> simp [dumps_len]
  | num n =>
    cases n with
    | ofNat m => exact natDigitsAux_pos m m
    | negSucc m => simp only [dumps_len, intReprLen]; omega
  | str s => simp only [dumps_len, strEscLen]; omega
  | arr xs => cases xs <;> simp [dumps_len]
  | obj kvs => cases kvs <;> simp [dumps_len]

theorem itemsLen_cons (x : JVal) (xs : List JVal) :
    itemsLen (x :: xs) = (dumps_len x + 1) + itemsLen xs := rfl

theorem fieldsLen_cons (e : String × JVal) (rest : List (String × JVal)) :
    fieldsLen (e :: rest) =
      (strEscLen e.1 + 1 + dumps_len e.2 + 1) + fieldsLen rest := by
  obtain ⟨k, v⟩ := e
  rfl

theorem dumps_arr_ge_two (xs : List JVal) : 2 ≤ dumps_len (.arr xs) := by
  cases xs with
  | nil => simp [dumps_len]
  | cons x rest =>
    have := dumps_len_pos x
    simp only [dumps_len, itemsLen_cons]
    omega

theorem dumps_obj_ge_two (kvs : List (String × JVal)) :
    2 ≤ dumps_len (.obj kvs) := by
  cases kvs with
  | nil => simp [dumps_len]
  | cons e rest =>
    have := dumps_len_pos e.2
    simp only [dumps_len, fieldsLen_cons]
    omega

theorem itemsLen_sublist {xs ys : List JVal} (h : xs.Sublist ys) :
    itemsLen xs ≤ itemsLen ys := by
  induction h with
  | slnil => exact Nat.le_refl 0
  | cons y _ ih =>
    rw [itemsLen_cons]
    omega
  | cons₂ y _ ih =>
    rw [itemsLen_cons, itemsLen_cons]
    omega

theorem fieldsLen_sublist {xs ys : List (String × JVal)} (h : xs.Sublist ys) :
    fieldsLen xs ≤ fieldsLen ys := by
  induction h with
  | slnil => exact Nat.le_refl 0
  | cons y _ ih =>
    rw [fieldsLen_cons]
    omega
  | cons₂ y _ ih =>
    rw [fieldsLen_cons, fieldsLen_cons]
    omega

theorem fieldsLen_perm {xs ys : List (String × JVal)} (h : List.Perm xs ys) :
    fieldsLen xs = fieldsLen ys := by
  induction h with
  | nil => rfl
  | cons e _ ih => rw [fieldsLen_cons, fieldsLen_cons, ih]
  | swap e1 e2 l =>
    rw [fieldsLen_cons, fieldsLen_cons, fieldsLen_cons, fieldsLen_cons]
    omega
  | trans _ _ ih1 ih2 => exact ih1.trans ih2

theorem dumps_obj_le_of_fieldsLen {kvs kvs' : List (String × JVal)}
    (h : fieldsLen kvs ≤ fieldsLen kvs') :
    dumps_len (.obj kvs) ≤ dumps_len (.obj kvs') := by
  cases kvs with
  | nil => exact dumps_obj_ge_two kvs'
  | cons e rest =>
    cases kvs' with
    | nil =>
      exfalso
      have h1 := dumps_len_pos e.2
      rw [fieldsLen_cons] at h
      simp only [fieldsLen] at h
      omega
    | cons e' rest' =>
      simp only [dumps_len]
      omega

theorem dumps_arr_le_of_itemsLen {xs ys : List JVal}
    (h : itemsLen xs ≤ itemsLen ys) :
    dumps_len (.arr xs) ≤ dumps_len (.arr ys) := by
  cases xs with
  | nil => exact dumps_arr_ge_two ys
  | cons x rest =>
    cases ys with
    | nil =>
      exfalso
      have h1 := dumps_len_pos x
      rw [itemsLen_cons] at h
      simp only [itemsLen] at h
      omega
    | cons y rest' =>
      simp only [dumps_len]
      omega

theorem dumps_obj_sublist {kvs kvs' : List (String × JVal)}
    (h : kvs.Sublist kvs') :
    dumps_len (.obj kvs) ≤ dumps_len (.obj kvs') :=
  dumps_obj_le_of_fieldsLen (fieldsLen_sublist h)

theorem fieldsLen_setField_le {kvs : List (String × JVal)} {k : String}
    {v w : JVal} (hl : lookupField kvs k = some w)
    (hva : dumps_len v ≤ dumps_len w) :
    fieldsLen (setField kvs k v) ≤ fieldsLen kvs := by
  induction kvs with
  | nil => cases hl
  | cons e rest ih =>
    obtain ⟨k0, w0⟩ := e
    by_cases hk : k0 = k
    · subst hk
      have hw : w0 = w := by simpa [lookupField] using hl
      subst hw
      simp only [setField, eq_self_iff_true, if_true, fieldsLen_cons]
      omega
    · have hl2 : lookupField rest k = some w := by
        simpa [lookupField, hk] using hl
      simp only [setField, hk, if_false, fieldsLen_cons]
      have := ih hl2
      omega

theorem dumps_obj_setField_le {kvs : List (String × JVal)} {k : String}
    {v w : JVal} (hl : lookupField kvs k = some w)
    (hva : dumps_len v ≤ dumps_len w) :
    dumps_len (.obj (setField kvs k v)) ≤ dumps_len (.obj kvs) :=
  dumps_obj_le_of_fieldsLen (fieldsLen_setField_le hl hva)

theorem pruneEntries_sublist {tooBig : JVal → Option Bool} :
    ∀ {entries kept : List (String × JVal)} {n : Nat},
      pruneEntries tooBig entries = some (kept, n) → kept.Sublist entries := by
  intro entries
  induction entries with
  | nil =>
    intro kept n h
    simp only [pruneEntries] at h
    cases h
    exact List.Sublist.refl _
  | cons e rest ih =>
    intro kept n h
    obtain ⟨k, v⟩ := e
    simp only [pruneEntries] at h
    cases hb : tooBig v with
    | none => simp [hb] at h
    | some flag =>
      simp only [hb] at h
      cases hr : pruneEntries tooBig rest with
      | none => simp [hr] at h
      | some p =>
        obtain ⟨kept0, n0⟩ := p
        simp only [hr] at h
        cases flag with
        | true =>
          rw [if_pos rfl] at h
          cases h
          exact (ih hr).cons _
        | false =>
          rw [if_neg Bool.false_ne_true] at h
          cases h
          exact (ih hr).cons₂ _

theorem compress_images_size {a a' : JVal} {m n : Nat}
    (h : compress_images a m = some (a', n)) : dumps_len a' ≤ dumps_len a := by
  cases a with
  | obj akvs =>
    simp only [compress_images] at h
    cases hl : lookupField akvs "images" with
    | none =>
      simp only [hl] at h
      cases h
      exact Nat.le_refl _
    | some img =>
      simp only [hl] at h
      cases hfal : isFalsy img with
      | true =>
        rw [hfal, if_pos rfl] at h
        cases h
        exact Nat.le_refl _
      | false =>
        rw [hfal, if_neg Bool.false_ne_true] at h
        cases img
        case obj entries =>
          cases hp : pruneEntries (fun a => imageTooBig a m) entries with
          | none => simp [hp] at h
          | some p =>
            obtain ⟨kept, n0⟩ := p
            simp only [hp] at h
            cases h
            exact dumps_obj_setField_le hl
              (dumps_obj_sublist (pruneEntries_sublist hp))
        all_goals simp at h
  | null => simp [compress_images] at h
  | bool b => simp [compress_images] at h
  | num n0 => simp [compress_images] at h
  | str s => simp [compress_images] at h
  | arr xs => simp [compress_images] at h

theorem compress_svgs_size {a a' : JVal} {m n : Nat}
    (h : compress_svgs a m = some (a', n)) : dumps_len a' ≤ dumps_len a := by
  cases a with
  | obj akvs =>
    simp only [compress_svgs] at h
    cases hl : lookupField akvs "svgs" with
    | none =>
      simp only [hl] at h
      cases h
      exact Nat.le_refl _
    | some svg =>
      simp only [hl] at h
      cases hfal : isFalsy svg with
      | true =>
        rw [hfal, if_pos rfl] at h
        cases h
        exact Nat.le_refl _
      | false =>
        rw [hfal, if_neg Bool.false_ne_true] at h
        cases svg
        case obj entries =>
          cases hp : pruneEntries (fun a => svgTooBig a m) entries with
          | none => simp [hp] at h
          | some p =>
            obtain ⟨kept, n0⟩ := p
            simp only [hp] at h
            cases h
            exact dumps_obj_setField_le hl
              (dumps_obj_sublist (pruneEntries_sublist hp))
        all_goals simp at h
  | null => simp [compress_svgs] at h
  | bool b => simp [compress_svgs] at h
  | num n0 => simp [compress_svgs] at h
  | str s => simp [compress_svgs] at h
  | arr xs => simp [compress_svgs] at h

theorem assetsStep_size {kvs kvs' : List (String × JVal)} {i s : Nat}
    (h : assetsStep kvs i s = some kvs') :
    dumps_len (.obj kvs') ≤ dumps_len (.obj kvs) := by
  unfold assetsStep at h
  cases hl : lookupField kvs "assets" with
  | none =>
    rw [hl] at h
    cases h
    exact Nat.le_refl _
  | some a =>
    rw [hl] at h
    cases hi : compress_images a i with
    | none => simp [hi] at h
    | some p1 =>
      obtain ⟨a1, n1⟩ := p1
      simp only [hi] at h
      cases hs : compress_svgs a1 s with
      | none => simp [hs] at h
      | some p2 =>
        obtain ⟨a2, n2⟩ := p2
        simp only [hs] at h
        cases h
        exact dumps_obj_setField_le hl
          ((compress_svgs_size hs).trans (compress_images_size hi))

theorem keysNodup_iff_nodupFst : ∀ m : List (String × JVal),
    keysNodup m = true ↔ (m.map Prod.fst).Nodup := by
  intro m
  induction m with
  | nil => simp [keysNodup]
  | cons e rest ih =>
    obtain ⟨k0, w0⟩ := e
    simp only [keysNodup, Bool.and_eq_true, Bool.not_eq_eq_eq_not, Bool.not_true,
      List.map_cons, List.nodup_cons, ih]
    constructor
    · rintro ⟨h1, h2⟩
      refine ⟨?_, h2⟩
      intro hmem
      obtain ⟨e2, he2, heq⟩ := List.mem_map.1 hmem
      have := hasField_of_mem he2
      rw [heq] at this
      rw [h1] at this
      cases this
    · rintro ⟨h1, h2⟩
      refine ⟨?_, h2⟩
      cases hf : hasField rest k0 with
      | false => rfl
      | true =>
        exfalso
        apply h1
        unfold hasField at hf
        cases hl : lookupField rest k0 with
        | none => rw [hl] at hf; cases hf
        | some w =>
          have : (k0, w) ∈ rest := by
            clear hf h1 h2 ih
            induction rest with
            | nil => cases hl
            | cons e2 r2 ih2 =>
              obtain ⟨k2, w2⟩ := e2
              by_cases hk2 : k2 = k0
              · subst hk2
                simp [lookupField] at hl
                simp [hl]
              · simp only [lookupField, hk2, if_false] at hl
                simp [ih2 hl]
          exact List.mem_map.2 ⟨(k0, w), this, rfl⟩

theorem keysNodup_sublist {l l' : List (String × JVal)} (hs : l.Sublist l')
    (h : keysNodup l' = true) : keysNodup l = true := by
  rw [keysNodup_iff_nodupFst] at h ⊢
  exact List.Nodup.sublist (List.Sublist.map Prod.fst hs) h

theorem truncateColors_lookup_ne {kvs kvs' : List (String × JVal)} {m : Nat}
    (h : truncateColors kvs m = some kvs') {k : String} (hk : k ≠ "colors") :
    lookupField kvs' k = lookupField kvs k := by
  unfold truncateColors at h
  split at h
  · cases h; rfl
  · cases h; exact lookupField_setField_ne _ _ _ _ (Ne.symm hk)
  · cases h

theorem truncateColors_size {kvs kvs1 : List (String × JVal)} {maxN : Nat}
    (hnd : ∀ items, lookupField kvs "colors" = some (.obj items) →
      keysNodup items = true)
    (h : truncateColors kvs maxN = some kvs1) :
    dumps_len (.obj kvs1) ≤ dumps_len (.obj kvs) := by
  unfold truncateColors at h
  cases hl : lookupField kvs "colors" with
  | none =>
    rw [hl] at h
    cases h
    exact Nat.le_refl _
  | some v =>
    rw [hl] at h
    cases v
    case obj items =>
      cases h
      have hperm := sort_colors_perm items
      have hndS : keysNodup (sort_colors items) = true :=
        keysNodup_perm hperm.symm (hnd items hl)
      have hndT : keysNodup ((sort_colors items).take maxN) = true :=
        keysNodup_sublist (List.take_sublist _ _) hndS
      rw [pyDict_nodup hndT]
      refine dumps_obj_setField_le hl (dumps_obj_le_of_fieldsLen ?_)
      calc fieldsLen ((sort_colors items).take maxN)
          ≤ fieldsLen (sort_colors items) :=
            fieldsLen_sublist (List.take_sublist _ _)
        _ = fieldsLen items := fieldsLen_perm hperm
    all_goals cases h

theorem truncateField_size {kvs kvs1 : List (String × JVal)} {f : String}
    {maxN : Nat}
    (hnd : ∀ items, lookupField kvs f = some (.obj items) →
      keysNodup items = true)
    (h : truncateField kvs f maxN = some kvs1) :
    dumps_len (.obj kvs1) ≤ dumps_len (.obj kvs) := by
  unfold truncateField at h
  cases hl : lookupField kvs f with
  | none =>
    rw [hl] at h
    cases h
    exact Nat.le_refl _
  | some v =>
    rw [hl] at h
    cases v
    case obj items =>
      cases h
      have hndT : keysNodup (items.take maxN) = true :=
        keysNodup_sublist (List.take_sublist _ _) (hnd items hl)
      rw [pyDict_nodup hndT]
      exact dumps_obj_setField_le hl
        (dumps_obj_sublist (List.take_sublist _ _))
    all_goals cases h

theorem compress_design_tokens_size {t t' : JVal} {ag : Bool}
    (hcaps : capsOKtokens t = true)
    (h : compress_design_tokens t ag = some t') :
    dumps_len t' ≤ dumps_len t := by
  cases hfal : isFalsy t with
  | true =>
    simp only [compress_design_tokens, hfal, if_true] at h
    cases h
    exact Nat.le_refl _
  | false =>
    simp only [compress_design_tokens, hfal, Bool.false_eq_true, if_false] at h
    cases t
    case obj kvs0 =>
      simp only [capsOKtokens, Bool.and_eq_true] at hcaps
      obtain ⟨⟨hcol, htyp⟩, hspc⟩ := hcaps
      cases h1 : truncateColors kvs0 (if ag then 15 else 30) with
      | none => simp [h1] at h
      | some kvs1 =>
        simp only [h1] at h
        cases h2 : truncateField kvs1 "typography" (if ag then 10 else 20) with
        | none => simp [h2] at h
        | some kvs2 =>
          simp only [h2] at h
          cases h3 : truncateField kvs2 "spacing" (if ag then 10 else 25) with
          | none => simp [h3] at h
          | some kvs3 =>
            simp only [h3] at h
            cases h
            have s1 : dumps_len (.obj kvs1) ≤ dumps_len (.obj kvs0) :=
              truncateColors_size (fun items hl => by
                simp only [hl] at hcol
                exact hcol) h1
            have s2 : dumps_len (.obj kvs2) ≤ dumps_len (.obj kvs1) :=
              truncateField_size (fun items hl => by
                rw [truncateColors_lookup_ne h1 (by decide)] at hl
                simp only [hl] at htyp
                exact htyp) h2
            have s3 : dumps_len (.obj kvs3) ≤ dumps_len (.obj kvs2) :=
              truncateField_size (fun items hl => by
                rw [truncateField_lookup_ne h2 (by decide),
                  truncateColors_lookup_ne h1 (by decide)] at hl
                simp only [hl] at hspc
                exact hspc) h3
            exact s3.trans (s2.trans s1)
    all_goals cases h

theorem tokensStep_size {kvs kvs' : List (String × JVal)} {ag : Bool}
    (hcaps : ∀ t, lookupField kvs "designTokens" = some t →
      capsOKtokens t = true)
    (h : tokensStep kvs ag = some kvs') :
    dumps_len (.obj kvs') ≤ dumps_len (.obj kvs) := by
  unfold tokensStep at h
  cases hl : lookupField kvs "designTokens" with
  | none =>
    rw [hl] at h
    cases h
    exact Nat.le_refl _
  | some t =>
    rw [hl] at h
    cases hc : compress_design_tokens t ag with
    | none => simp [hc] at h
    | some t1 =>
      simp only [hc] at h
      cases h
      exact dumps_obj_setField_le hl (compress_design_tokens_size (hcaps t hl) hc)

theorem simplifyKids_size {f : Nat}
    (hstep : ∀ c c', WFtreeF f c = true → simplifyFuel f c = some c' →
      dumps_len c' ≤ dumps_len c) :
    ∀ xs xs', (∀ c ∈ xs, WFtreeF f c = true) →
      simplifyKids (fun c => simplifyFuel f c) xs = some xs' →
      itemsLen xs' ≤ itemsLen xs := by
  intro xs
  induction xs with
  | nil =>
    intro xs' _ h
    simp only [simplifyKids] at h
    cases h
    exact Nat.le_refl _
  | cons c rest ih =>
    intro xs' hwf h
    simp only [simplifyKids] at h
    cases c
    case obj ckvs =>
      cases hs : simplifyFuel f (.obj ckvs) with
      | none => simp [hs] at h
      | some c' =>
        simp only [hs] at h
        cases hr : simplifyKids (fun c => simplifyFuel f c) rest with
        | none => simp [hr] at h
        | some rest' =>
          simp only [hr] at h
          cases h
          have h1 := hstep _ _ (hwf _ (List.mem_cons_self _ _)) hs
          have h2 := ih rest' (fun c hc => hwf c (List.mem_cons_of_mem _ hc)) hr
          rw [itemsLen_cons, itemsLen_cons]
          omega
    all_goals {
      cases hr : simplifyKids (fun c => simplifyFuel f c) rest with
      | none => simp [hr] at h
      | some rest' =>
        simp only [hr] at h
        cases h
        have h2 := ih rest' (fun c hc => hwf c (List.mem_cons_of_mem _ hc)) hr
        rw [itemsLen_cons, itemsLen_cons]
        omega
    }

theorem simplifyFuel_size : ∀ (fuel : Nat) (node node' : JVal),
    WFtreeF fuel node = true → simplifyFuel fuel node = some node' →
    dumps_len node' ≤ dumps_len node := by
  intro fuel
  induction fuel with
  | zero =>
    intro node node' hwf h
    rw [simplifyFuel_zero] at h
    cases node with
    | obj kvs =>
      have hsub : dumps_len (.obj (stripFields kvs)) ≤ dumps_len (.obj kvs) :=
        dumps_obj_sublist (show (stripFields kvs).Sublist kvs from
          List.filter_sublist _)
      simp only [stripMeta, clearChildren_obj] at h
      cases h
      by_cases hch : hasField (stripFields kvs) "children"
      · rw [if_pos hch]
        cases hlk : lookupField (stripFields kvs) "children" with
        | none => rw [hasField, hlk] at hch; simp at hch
        | some v =>
          have horig : lookupField kvs "children" = some v := by
            rw [← @stripFields_lookup_other kvs "children" (by decide)]
            exact hlk
          cases v with
          | arr xs =>
            refine (dumps_obj_setField_le hlk ?_).trans hsub
            rw [show dumps_len (JVal.arr []) = 2 from rfl]
            exact dumps_arr_ge_two xs
          | null => simp [WFtreeF, horig] at hwf
          | bool b => simp [WFtreeF, horig] at hwf
          | num n => simp [WFtreeF, horig] at hwf
          | str s2 => simp [WFtreeF, horig] at hwf
          | obj o => simp [WFtreeF, horig] at hwf
      · rw [if_neg hch]
        exact hsub
    | str s =>
      simp only [stripMeta] at h
      cases hany : metadataKeys.any (fun k => strHasSub k s) with
      | true => simp [hany] at h
      | false =>
        simp only [hany, Bool.false_eq_true, if_false, clearChildren,
          pyContainsKey] at h
        cases hc : strHasSub "children" s with
        | true => simp [hc] at h
        | false =>
          simp only [hc] at h
          cases h
          exact Nat.le_refl _
    | arr xs =>
      simp only [stripMeta] at h
      cases hany : metadataKeys.any (fun k => xs.contains (.str k)) with
      | true => rw [hany] at h; simp at h
      | false =>
        simp only [hany, Bool.false_eq_true, if_false, clearChildren,
          pyContainsKey] at h
        cases hc : xs.contains (.str "children") with
        | true => rw [hc] at h; simp at h
        | false =>
          simp only [hc] at h
          cases h
          exact Nat.le_refl _
    | null => simp [stripMeta] at h
    | bool b => simp [stripMeta] at h
    | num n => simp [stripMeta] at h
  | succ f ih =>
    intro node node' hwf h
    rw [simplifyFuel_succ] at h
    cases node with
    | obj kvs =>
      have hsub : dumps_len (.obj (stripFields kvs)) ≤ dumps_len (.obj kvs) :=
        dumps_obj_sublist (show (stripFields kvs).Sublist kvs from
          List.filter_sublist _)
      simp only [stripMeta, pyContainsKey] at h
      cases hch : hasField (stripFields kvs) "children" with
      | false =>
        simp only [hch] at h
        cases h
        exact hsub
      | true =>
        simp only [hch] at h
        cases hlk : lookupField (stripFields kvs) "children" with
        | none => rw [hasField, hlk] at hch; simp at hch
        | some v =>
          simp only [hlk] at h
          have horig : lookupField kvs "children" = some v := by
            rw [← @stripFields_lookup_other kvs "children" (by decide)]
            exact hlk
          cases v
          case arr xs =>
            cases hk : simplifyKids (fun c => simplifyFuel f c) xs with
            | none => simp [hk] at h
            | some xs' =>
              simp only [hk] at h
              cases h
              have hall : ∀ c ∈ xs, WFtreeF f c = true := by
                simp only [WFtreeF, horig] at hwf
                exact fun c hc => List.all_eq_true.1 hwf c hc
              have hil : itemsLen xs' ≤ itemsLen xs :=
                simplifyKids_size (fun c c' hw hs => ih c c' hw hs) xs xs' hall hk
              refine (dumps_obj_setField_le hlk ?_).trans hsub
              exact dumps_arr_le_of_itemsLen hil
          all_goals {
            cases h
            exact hsub
          }
    | str s =>
      simp only [stripMeta] at h
      cases hany : metadataKeys.any (fun k => strHasSub k s) with
      | true => simp [hany] at h
      | false =>
        simp only [hany, Bool.false_eq_true, if_false, pyContainsKey] at h
        cases hc : strHasSub "children" s with
        | true => simp [hc] at h
        | false =>
          simp only [hc] at h
          cases h
          exact Nat.le_refl _
    | arr xs =>
      simp only [stripMeta] at h
      cases hany : metadataKeys.any (fun k => xs.contains (.str k)) with
      | true => rw [hany] at h; simp at h
      | false =>
        simp only [hany, Bool.false_eq_true, if_false, pyContainsKey] at h
        cases hc : xs.contains (.str "children") with
        | true => rw [hc] at h; simp at h
        | false =>
          simp only [hc] at h
          cases h
          exact Nat.le_refl _
    | null => simp [stripMeta] at h
    | bool b => simp [stripMeta] at h
    | num n => simp [stripMeta] at h

theorem treeStep_size {kvs kvs' : List (String × JVal)} {m : Nat}
    (hwf : ∀ tr, lookupField kvs "tree" = some tr → WFtreeF m tr = true)
    (h : treeStep kvs m = some kvs') :
    dumps_len (.obj kvs') ≤ dumps_len (.obj kvs) := by
  unfold treeStep at h
  cases hl : lookupField kvs "tree" with
  | none =>
    rw [hl] at h
    cases h
    exact Nat.le_refl _
  | some tr =>
    rw [hl] at h
    cases hs : simplify_tree tr m 0 with
    | none => simp [hs] at h
    | some tr' =>
      simp only [hs] at h
      cases h
      exact dumps_obj_setField_le hl (simplifyFuel_size (m - 0) tr tr'
        (hwf tr hl) hs)

theorem compress_standard_size {d d1 : JVal}
    (hwf : wfDocSize d 10 = true)
    (h : compress_standard d = some d1) :
    dumps_len d1 ≤ dumps_len d := by
  cases d with
  | obj kvs0 =>
    simp only [wfDocSize, Bool.and_eq_true] at hwf
    obtain ⟨htk, htr⟩ := hwf
    simp only [compress_standard] at h
    cases h1 : assetsStep kvs0 75 30 with
    | none => simp [h1] at h
    | some kvs1 =>
      simp only [h1] at h
      cases h2 : tokensStep kvs1 false with
      | none => simp [h2] at h
      | some kvs2 =>
        simp only [h2] at h
        cases h3 : treeStep kvs2 10 with
        | none => simp [h3] at h
        | some kvs3 =>
          simp only [h3] at h
          cases h
          have s1 := assetsStep_size h1
          have s2 : dumps_len (.obj kvs2) ≤ dumps_len (.obj kvs1) := by
            refine tokensStep_size ?_ h2
            intro t ht
            rw [assetsStep_lookup_ne h1 (by decide)] at ht
            simp only [ht] at htk
            exact htk
          have s3 : dumps_len (.obj kvs3) ≤ dumps_len (.obj kvs2) := by
            refine treeStep_size ?_ h3
            intro tr ht
            rw [tokensStep_lookup_ne h2 (by decide),
              assetsStep_lookup_ne h1 (by decide)] at ht
            simp only [ht] at htr
            exact htr
          exact s3.trans (s2.trans s1)
  | null =>
    simp only [compress_standard] at h
    rw [absentAll_some _ _ _ h]
  | bool b =>
    simp only [compress_standard] at h
    rw [absentAll_some _ _ _ h]
  | num n =>
    simp only [compress_standard] at h
    rw [absentAll_some _ _ _ h]
  | str s =>
    simp only [compress_standard] at h
    rw [absentAll_some _ _ _ h]
  | arr xs =>
    simp only [compress_standard] at h
    rw [absentAll_some _ _ _ h]

theorem compress_aggressive_size {d d1 : JVal}
    (hwf : wfDocSize d 6 = true)
    (hcomp : componentsBigEnough d = true)
    (h : compress_aggressive d = some d1) :
    dumps_len d1 ≤ dumps_len d := by
  cases d with
  | obj kvs0 =>
    simp only [wfDocSize, Bool.and_eq_true] at hwf
    obtain ⟨htk, htr⟩ := hwf
    obtain ⟨kvs1, kvs2, kvs5, h1, h2, h5, rfl⟩ := compress_aggressive_post h
    have s1 := assetsStep_size h1
    have s2 : dumps_len (.obj kvs2) ≤ dumps_len (.obj kvs1) := by
      refine tokensStep_size ?_ h2
      intro t ht
      rw [assetsStep_lookup_ne h1 (by decide)] at ht
      simp only [ht] at htk
      exact htk
    have s3 : dumps_len (.obj (removeField kvs2 "screenshot")) ≤
        dumps_len (.obj kvs2) :=
      dumps_obj_sublist (show (removeField kvs2 "screenshot").Sublist kvs2 from
        List.filter_sublist _)
    have s4 : dumps_len (.obj (if hasField (removeField kvs2 "screenshot")
          "components"
        then setField (removeField kvs2 "screenshot") "components"
          componentsReset
        else removeField kvs2 "screenshot")) ≤
        dumps_len (.obj (removeField kvs2 "screenshot")) := by
      by_cases hc : hasField (removeField kvs2 "screenshot") "components"
      · rw [if_pos hc]
        cases hlc : lookupField (removeField kvs2 "screenshot") "components" with
        | none => rw [hasField, hlc] at hc; simp at hc
        | some c =>
          refine dumps_obj_setField_le hlc ?_
          have hlc0 : lookupField kvs0 "components" = some c := by
            rw [← assetsStep_lookup_ne h1 (by decide),
              ← tokensStep_lookup_ne h2 (by decide),
              ← lookupField_removeField_ne (show "screenshot" ≠ "components"
                from by decide)]
            exact hlc
          simp only [componentsBigEnough, hlc0] at hcomp
          exact of_decide_eq_true hcomp
      · rw [if_neg hc]
    have s5 : dumps_len (.obj kvs5) ≤
        dumps_len (.obj (if hasField (removeField kvs2 "screenshot")
          "components"
        then setField (removeField kvs2 "screenshot") "components"
          componentsReset
        else removeField kvs2 "screenshot")) := by
      refine treeStep_size ?_ h5
      intro tr ht
      have ht2 : lookupField (removeField kvs2 "screenshot") "tree" = some tr := by
        by_cases hc : hasField (removeField kvs2 "screenshot") "components"
        · rw [if_pos hc] at ht
          rw [lookupField_setField_ne _ "components" "tree" componentsReset
            (by decide)] at ht
          exact ht
        · rw [if_neg hc] at ht
          exact ht
      rw [lookupField_removeField_ne (show "screenshot" ≠ "tree" from by decide),
        tokensStep_lookup_ne h2 (by decide),
        assetsStep_lookup_ne h1 (by decide)] at ht2
      simp only [ht2] at htr
      exact htr
    have s6 : dumps_len (.obj (removeField (removeField (removeField kvs5
        "cssVariables") "variants") "extractionSummary")) ≤
        dumps_len (.obj kvs5) := by
      refine dumps_obj_sublist ?_
      exact ((List.filter_sublist _).trans (List.filter_sublist _)).trans
        (List.filter_sublist _)
    exact s6.trans (s5.trans (s4.trans (s3.trans (s2.trans s1))))
  | null =>
    simp only [compress_aggressive] at h
    rw [absentAll_some _ _ _ h]
  | bool b =>
    simp only [compress_aggressive] at h
    rw [absentAll_some _ _ _ h]
  | num n =>
    simp only [compress_aggressive] at h
    rw [absentAll_some _ _ _ h]
  | str s =>
    simp only [compress_aggressive] at h
    rw [absentAll_some _ _ _ h]
  | arr xs =>
    simp only [compress_aggressive] at h
    rw [absentAll_some _ _ _ h]

/-- C3 is false as stated: the aggressive tier can grow a document.  On
{"components": {}} (17 serialized bytes) the components value is replaced
by {"definitions": {}}, producing {"components":{"definitions":{}}} (33
serialized bytes), strictly larger than the input. -/
theorem c3_counterexample :
    (compress_aggressive (JVal.obj [("components", JVal.obj [])])).map
      dumps_len = some 33 ∧
    dumps_len (JVal.obj [("components", JVal.obj [])]) = 17 := by decide

/-- C3 (amended): each tier is size-monotone on well-shaped documents:
token collections (colors/typography/spacing, when present as mappings)
have pairwise-distinct keys, every children value on a mapping node the
simplifier visits down to the tier's depth budget (10 standard, 6
aggressive) is a sequence, and — for the aggressive tier — a present
components value serializes to at least the 18 bytes of its fixed
replacement {"definitions": {}}.  Then the serialized size of the output
is at most that of the input.  (Without these provisos the tiers can grow
a document: see the counterexample; the original claim's equality rider
is dropped along with its unconditional form.) -/
theorem c3_size_monotone_amended {d d1 : JVal} {ag : Bool}
    (hwf : wfDocSize d (if ag then 6 else 10) = true)
    (hcomp : ag = true → componentsBigEnough d = true)
    (h : (if ag then compress_aggressive d else compress_standard d) = some d1) :
    dumps_len d1 ≤ dumps_len d := by
  cases ag with
  | true =>
    exact compress_aggressive_size (by simpa using hwf) (hcomp rfl)
      (by simpa using h)
  | false =>
    exact compress_standard_size (by simpa using hwf) (by simpa using h)

theorem c3_size_monotone_amended_witness :
    wfDocSize (JVal.obj [("screenshot", JVal.str "bytes"),
      ("tree", JVal.obj [("children", JVal.arr [])])])
      (if true then 6 else 10) = true ∧
    dumps_len (JVal.obj [("tree", JVal.obj [("children", JVal.arr [])])]) ≤
      dumps_len (JVal.obj [("screenshot", JVal.str "bytes"),
        ("tree", JVal.obj [("children", JVal.arr [])])]) :=
  ⟨by decide,
   @c3_size_monotone_amended
     (JVal.obj [("screenshot", JVal.str "bytes"),
       ("tree", JVal.obj [("children", JVal.arr [])])])
     (JVal.obj [("tree", JVal.obj [("children", JVal.arr [])])])
     true (by decide) (fun _ => by decide) (by decide)⟩
